import Mathlib

/-!
# dynamic::var

A verification development for `src/dynamic.cpp`: the comparator `less_var`, the
append / count / index operators of `var` and their effect on the shared
containers a `var` may point to, and the two renderers `_write_var`.

Conventions of the embedding

* A `var` is the eight-alternative variant of the source.  The two container
  alternatives hold a `shared_ptr`; a pointer is an address into a `heap`, so
  that copies of a `var` share their container exactly as in the source.
* Every operator takes the heap and gives back its outcome together with the
  heap it leaves behind, also when it throws.
* `std::vector` is a list; `std::map<var, var, less_var>` is the list of its
  entries in iteration order, and `lower_bound`, `find` and `insert` are the
  standard operations on that list.
* A stream is the text written so far together with the sticky format state
  that the renderers change.  A renderer takes a bound on the depth of its
  nested calls and returns `none` when the bound is too small, as it is for
  every bound when a container contains itself.
-/

set_option autoImplicit false

namespace dynamic

/-! ## Data model -/

/-- Modelled from the spec: the error carrier of `dynamic/exception.hpp`, which
is constructed from a message string and thrown. -/
structure exception where
  what : String
deriving DecidableEq, Repr

instance instDecidableEqExcept {ε α : Type} [DecidableEq ε] [DecidableEq α] :
    DecidableEq (Except ε α)
  | .ok a, .ok b => if h : a = b then isTrue (by rw [h]) else isFalse (by
      intro e; cases e; exact h rfl)
  | .error a, .error b => if h : a = b then isTrue (by rw [h]) else isFalse (by
      intro e; cases e; exact h rfl)
  | .ok _, .error _ => isFalse (by intro e; cases e)
  | .error _, .ok _ => isFalse (by intro e; cases e)

/-- Modelled from the spec: the payload type `double_t` of `var.hpp`, a C++
`double`, as an IEEE 754 binary64 datum: sign bit, 11-bit biased exponent,
52-bit fraction. -/
structure double_t where
  sign : Bool
  exponent : Fin 2048
  fraction : Fin 4503599627370496
deriving DecidableEq, Repr

namespace double_t

/-- A datum with all exponent bits set and a non-zero fraction is a NaN. -/
def isnan (d : double_t) : Bool :=
  decide (d.exponent.val = 2047) && decide (d.fraction.val ≠ 0)

/-- The position of a non-NaN datum on the extended real line: the magnitude
bits read as a natural number grow with the absolute value, and the sign bit
mirrors them; both zeros are at position 0. -/
def rank (d : double_t) : Int :=
  if d.sign then -((d.exponent.val * 4503599627370496 + d.fraction.val : Nat) : Int)
  else ((d.exponent.val * 4503599627370496 + d.fraction.val : Nat) : Int)

/-- The built-in `<` of C++ on two doubles: false as soon as one operand is a
NaN, otherwise the order of the values. -/
def lt (a b : double_t) : Bool :=
  !a.isnan && !b.isnan && decide (a.rank < b.rank)

end double_t

/-- The `operator<` of `std::basic_string`: lexicographic comparison of the
character codes, a proper initial segment being smaller. -/
def basic_string_less : List Char → List Char → Bool
  | [], [] => false
  | [], _ :: _ => true
  | _ :: _, [] => false
  | a :: as, b :: bs =>
    if a < b then true
    else if b < a then false
    else basic_string_less as bs

/-- Modelled from the spec: the enumeration `var::code` of `var.hpp`, in the
declaration order given by the spec (null, bool, int, double, string,
wide string, sequence, mapping). -/
inductive code where
  | type_null
  | type_bool
  | type_int
  | type_double
  | type_string
  | type_wstring
  | type_vector
  | type_map
deriving DecidableEq, Repr

/-- Modelled from the spec: the ordinal of an enumerator of `var::code`, by which
`<` on `code` compares; the position in the list null, bool, int, double,
string, wide string, sequence, mapping. -/
def code.ord : code → Nat
  | .type_null => 0
  | .type_bool => 1
  | .type_int => 2
  | .type_double => 3
  | .type_string => 4
  | .type_wstring => 5
  | .type_vector => 6
  | .type_map => 7

/-- Modelled from the spec: the variant `var::_var` of `var.hpp` with its eight
alternatives `null_t`, `bool_t`, `int_t`, `double_t`, `string_t`, `wstring_t`,
`vector_ptr`, `map_ptr`.  The string alternatives carry the characters of the
(immutable) buffer they share; the container alternatives carry the address of
the shared container. -/
inductive var where
  | null
  | bool (b : Bool)
  | int (n : Int)
  | double (d : double_t)
  | string (s : String)
  | wstring (s : String)
  | vector (ptr : Nat)
  | map (ptr : Nat)
deriving DecidableEq, Repr

/-- Modelled from the spec: `var::type()` of `var.hpp`, the code of the active
alternative. -/
def var.type : var → code
  | .null => .type_null
  | .bool _ => .type_bool
  | .int _ => .type_int
  | .double _ => .type_double
  | .string _ => .type_string
  | .wstring _ => .type_wstring
  | .vector _ => .type_vector
  | .map _ => .type_map

/-- The global `const var none;` of the source: a default-constructed var,
which is null. -/
def none : var := var.null

/-- The comparator `var::less_var::operator()`.  Vars of different types are
ordered by type code; vars of the same type by payload, except that two
sequences or two mappings are never less than one another.  The `default`
branch of the switch is not reachable, `code` having no ninth enumerator. -/
def var.less_var (lhs rhs : var) : Bool :=
  let lht := lhs.type
  let rht := rhs.type
  if lht ≠ rht then decide (lht.ord < rht.ord)
  else
    match lhs, rhs with
    | .null, _ => false
    | .bool a, .bool b => decide (a < b)
    | .int a, .int b => decide (a < b)
    | .double a, .double b => double_t.lt a b
    | .string a, .string b => basic_string_less a.data b.data
    | .wstring a, .wstring b => basic_string_less a.data b.data
    | .vector _, _ => false
    | .map _, _ => false
    | _, _ => false

/-- Two vars are equivalent for the comparator when neither is less than the
other: this is the key equality of `std::map<var, var, less_var>`. -/
def var.equiv (a b : var) : Bool :=
  !var.less_var a b && !var.less_var b a

/-- Whether a var holds a double that is a NaN. -/
def var.isnan : var → Bool
  | .double d => d.isnan
  | _ => false

/-- The double 1.0. -/
def double_one : double_t := ⟨false, 1023, 0⟩

/-- The double 2.0. -/
def double_two : double_t := ⟨false, 1024, 0⟩

/-- A quiet NaN. -/
def double_nan : double_t := ⟨false, 2047, 2251799813685248⟩

/-! ## Containers and the heap -/

/-- A `std::vector<var>`: its elements in order. -/
abbrev vector_type := List var

/-- A `std::map<var, var, less_var>`: its entries in iteration order.  An
iterator is a position in this list, `end()` being the length. -/
abbrev map_type := List (var × var)

/-- The invariant of a `std::map`: along the iteration order every key is less
than every later key. -/
def ascending (m : map_type) : Prop :=
  m.Pairwise (fun a b => var.less_var a.1 b.1 = true)

instance instDecidableAscending (m : map_type) : Decidable (ascending m) := by
  unfold ascending; infer_instance

/-- No key of `m` is equivalent to `k`. -/
def absent (k : var) (m : map_type) : Prop :=
  ∀ e ∈ m, var.equiv e.1 k = false

instance instDecidableAbsent (k : var) (m : map_type) : Decidable (absent k m) := by
  unfold absent; infer_instance

namespace map_type

/-- The member `std::map::lower_bound`: an iterator to the first entry whose key
is not less than `k`, or `end()`. -/
def lower_bound : map_type → var → Nat
  | [], _ => 0
  | e :: es, k => if var.less_var e.1 k then lower_bound es k + 1 else 0

/-- The member `std::map::find`: an iterator to the entry whose key is
equivalent to `k`, or `end()`. -/
def find (m : map_type) (k : var) : Nat :=
  let it := lower_bound m k
  match m[it]? with
  | .none => m.length
  | some e => if var.less_var k e.1 then m.length else it

/-- The member `std::map::insert(const value_type&)`: the entry is added, at its
place in the order, unless an entry with an equivalent key is there already.
The result is the `pair<iterator, bool>` of the call and the map after it. -/
def insert (m : map_type) (kv : var × var) : (Nat × Bool) × map_type :=
  let it := lower_bound m kv.1
  match m[it]? with
  | .none => ((it, true), m.take it ++ kv :: m.drop it)
  | some e =>
    if var.less_var kv.1 e.1 then ((it, true), m.take it ++ kv :: m.drop it)
    else ((it, false), m)

/-- The member `std::map::insert(iterator hint, const value_type&)`: the hint
only speeds the search up; the result is the iterator to the entry with the
key, and the map after the call. -/
def insert_hint (m : map_type) (_hint : Nat) (kv : var × var) : Nat × map_type :=
  ((insert m kv).1.1, (insert m kv).2)

end map_type

/-- The containers that vars point to.  A `vector_ptr` with address `p` points
to `vectors p`, a `map_ptr` with address `p` to `maps p`. -/
structure heap where
  vectors : Nat → vector_type
  maps : Nat → map_type

/-- The heap in which every container is still empty, as a container is when
its constructor has made it. -/
def heap.empty : heap := ⟨fun _ => [], fun _ => []⟩

/-- Every mapping of the heap is ascending. -/
def heap.wf (h : heap) : Prop := ∀ ptr : Nat, ascending (h.maps ptr)

/-- A `var&` into a container: the element `n` of a sequence, or the mapped
value of the entry at iterator `it` of a mapping.  It designates that slot as
long as the container is not restructured. -/
inductive ref where
  | element (ptr : Nat) (n : Nat)
  | mapped (ptr : Nat) (it : Nat)
deriving DecidableEq, Repr

/-- The var a reference designates. -/
def heap.read (h : heap) : ref → Option var
  | .element ptr n => (h.vectors ptr)[n]?
  | .mapped ptr it => ((h.maps ptr)[it]?).map Prod.snd

/-- Assignment through a reference, `r = value`: the slot takes the new var,
nothing else changes. -/
def heap.assign (h : heap) (r : ref) (value : var) : heap :=
  match r with
  | .element ptr n =>
    { h with vectors := Function.update h.vectors ptr ((h.vectors ptr).set n value) }
  | .mapped ptr it =>
    match (h.maps ptr)[it]? with
    | .none => h
    | some e =>
      { h with maps := Function.update h.maps ptr ((h.maps ptr).set it (e.1, value)) }

/-- The conversion `int(ptr->size())` of a `size_t` to `int`, an `int` having 32
bits: the value modulo 2^32, read as a signed number, so that sizes from 2^31 on
wrap around to negative ints. -/
def int_of_size (k : Nat) : Int :=
  if k % 4294967296 < 2147483648 then ((k % 4294967296 : Nat) : Int)
  else ((k % 4294967296 : Nat) : Int) - 4294967296

/-! ## The operators -/

/-- The visitor `var::append_value_visitor`, applied to the active alternative
of `self`. -/
def var.append_value_visitor (self value : var) (h : heap) :
    var → Except exception var × heap
  | .null => (.error ⟨"invalid () operation on none"⟩, h)
  | .bool _ => (.error ⟨"invalid () operation on bool"⟩, h)
  | .int _ => (.error ⟨"invalid () operation on int"⟩, h)
  | .double _ => (.error ⟨"invalid () operation on double"⟩, h)
  | .string _ => (.error ⟨"invalid () operation on string"⟩, h)
  | .wstring _ => (.error ⟨"invalid () operation on wstring"⟩, h)
  | .vector ptr =>
    (.ok self, { h with vectors := Function.update h.vectors ptr (h.vectors ptr ++ [value]) })
  | .map ptr =>
    (.ok self,
      { h with maps := Function.update h.maps ptr (map_type.insert (h.maps ptr) (value, none)).2 })

/-- The operator `var::operator()(const var&)`: append a single value. -/
def var.append (self v : var) (h : heap) : Except exception var × heap :=
  var.append_value_visitor self v h self

/-- The visitor `var::append_key_value_visitor`. -/
def var.append_key_value_visitor (self key value : var) (h : heap) :
    var → Except exception var × heap
  | .null => (.error ⟨"invalid (,) operation on none"⟩, h)
  | .bool _ => (.error ⟨"invalid (,) operation on bool"⟩, h)
  | .int _ => (.error ⟨"invalid (,) operation on int"⟩, h)
  | .double _ => (.error ⟨"invalid (,) operation on double"⟩, h)
  | .string _ => (.error ⟨"invalid (,) operation on string"⟩, h)
  | .wstring _ => (.error ⟨"invalid (,) operation on wstring"⟩, h)
  | .vector _ => (.error ⟨"invalid (,) operation on vector"⟩, h)
  | .map ptr =>
    (.ok self,
      { h with maps := Function.update h.maps ptr (map_type.insert (h.maps ptr) (key, value)).2 })

/-- The operator `var::operator()(const var&, const var&)`: add a key and its
value to a mapping. -/
def var.append_kv (self key value : var) (h : heap) : Except exception var × heap :=
  var.append_key_value_visitor self key value h self

/-- The visitor `var::count_visitor`.  The result type `size_type` of `var.hpp`
is taken to hold every `size_t`. -/
def var.count_visitor (h : heap) : var → Except exception Nat × heap
  | .null => (.error ⟨"invalid .count() operator on none"⟩, h)
  | .bool _ => (.error ⟨"invalid .count() operator on bool"⟩, h)
  | .int _ => (.error ⟨"invalid .count() operator on int"⟩, h)
  | .double _ => (.error ⟨"invalid .count() operator on double"⟩, h)
  | .string value => (.ok value.length, h)
  | .wstring value => (.ok value.length, h)
  | .vector ptr => (.ok (h.vectors ptr).length, h)
  | .map ptr => (.ok (h.maps ptr).length, h)

/-- The member `var::count()`. -/
def var.count (self : var) (h : heap) : Except exception Nat × heap :=
  var.count_visitor h self

/-- The visitor `var::index_int_visitor`. -/
def var.index_int_visitor (n : Int) (h : heap) : var → Except exception ref × heap
  | .null => (.error ⟨"cannot apply [int] to none"⟩, h)
  | .bool _ => (.error ⟨"cannot apply [int] to bool"⟩, h)
  | .int _ => (.error ⟨"cannot apply [int] to int"⟩, h)
  | .double _ => (.error ⟨"cannot apply [int] to double"⟩, h)
  | .string _ => (.error ⟨"cannot apply [int] to string"⟩, h)
  | .wstring _ => (.error ⟨"cannot apply [int] to wstring"⟩, h)
  | .vector ptr =>
    if n < 0 ∨ n ≥ int_of_size (h.vectors ptr).length then
      (.error ⟨"[int] out of range in vector"⟩, h)
    else (.ok (.element ptr n.toNat), h)
  | .map ptr =>
    let key := var.int n
    let it := map_type.find (h.maps ptr) key
    if it = (h.maps ptr).length then (.error ⟨"[int] not found in map"⟩, h)
    else (.ok (.mapped ptr it), h)

/-- The operator `var::operator[](int)`. -/
def var.index (self : var) (n : Int) (h : heap) : Except exception ref × heap :=
  var.index_int_visitor n h self

/-- The visitor `var::index_var_visitor`. -/
def var.index_var_visitor (key : var) (h : heap) : var → Except exception ref × heap
  | .null => (.error ⟨"cannot apply [var] to none"⟩, h)
  | .bool _ => (.error ⟨"cannot apply [var] to bool"⟩, h)
  | .int _ => (.error ⟨"cannot apply [var] to int"⟩, h)
  | .double _ => (.error ⟨"cannot apply [var] to double"⟩, h)
  | .string _ => (.error ⟨"cannot apply [var] to string"⟩, h)
  | .wstring _ => (.error ⟨"cannot apply [var] to wstring"⟩, h)
  | .vector _ => (.error ⟨"vector[] requires int"⟩, h)
  | .map ptr =>
    let it := map_type.lower_bound (h.maps ptr) key
    let missing : Bool :=
      match (h.maps ptr)[it]? with
      | .none => true
      | some e => var.less_var key e.1
    if missing then
      let r := map_type.insert_hint (h.maps ptr) it (key, none)
      (.ok (.mapped ptr r.1), { h with maps := Function.update h.maps ptr r.2 })
    else (.ok (.mapped ptr it), h)

/-- The operator `var::operator[](const var&)`. -/
def var.index_key (self v : var) (h : heap) : Except exception ref × heap :=
  var.index_var_visitor v h self

/-- The operator `var::operator[](const var&) const`. -/
def var.index_key_const (self v : var) (h : heap) : Except exception ref × heap :=
  var.index_var_visitor v h self

/-- One step of a client of `var`: a call of one of the operators on some
receiver, or an assignment through a reference that an index operator gave. -/
inductive call where
  | append (self value : var)
  | append_kv (self key value : var)
  | count (self : var)
  | index (self : var) (n : Int)
  | index_key (self key : var)
  | index_key_const (self key : var)
  | assign (r : ref) (value : var)
deriving DecidableEq, Repr

/-- The heap after a step. -/
def call.exec : call → heap → heap
  | .append self value, h => (var.append self value h).2
  | .append_kv self key value, h => (var.append_kv self key value h).2
  | .count self, h => (var.count self h).2
  | .index self n, h => (var.index self n h).2
  | .index_key self key, h => (var.index_key self key h).2
  | .index_key_const self key, h => (var.index_key_const self key h).2
  | .assign r value, h => h.assign r value

/-- The heap after a sequence of steps. -/
def run (cs : List call) (h : heap) : heap :=
  cs.foldl (fun acc c => c.exec acc) h

/-- Append the vars of a list one by one to the receiver, stopping at the first
failure. -/
def append_all (self : var) : List var → heap → Except exception var × heap
  | [], h => (.ok self, h)
  | v :: vs, h =>
    match var.append self v h with
    | (.ok _, h1) => append_all self vs h1
    | (.error e, h1) => (.error e, h1)

/-- Modelled from the spec: the copy constructor of `var` (`var.hpp`).  The copy
holds the same alternative with the same payload: a scalar is copied, and a
pointer is copied too, so that the copy points to the same shared container. -/
def var.copy (x : var) : var := x

/-! ## Output streams -/

/-- The `basefield` of the format flags of a stream: the base in which integers
are written. -/
inductive basefield where
  | dec
  | oct
  | hex
deriving DecidableEq, Repr

/-- A `std::ostream` or `std::wostream` as far as the renderers use it: the
characters written so far, the integer base and the fill character.  Both are
sticky: once set they stay until set again.  The field width is not part of the
state, a width being used up by the output that follows `std::setw`. -/
structure ostream where
  out : List Char
  base : basefield
  fill : Char
deriving DecidableEq, Repr

/-- A stream as its constructor leaves it: nothing written, decimal integers,
blank fill. -/
def ostream.fresh : ostream := ⟨[], .dec, ' '⟩

/-- Output of a string literal, `os << "..."`. -/
def ostream.write (os : ostream) (s : String) : ostream :=
  { os with out := os.out ++ s.data }

/-- Output of one character, `os << c`. -/
def ostream.put (os : ostream) (c : Char) : ostream :=
  { os with out := os.out ++ [c] }

/-- The digits of an `int` in a base: signed in decimal; in octal and in
hexadecimal the 32-bit pattern of the int read as an unsigned number. -/
def int_text (b : basefield) (n : Int) : List Char :=
  match b with
  | .dec => if n < 0 then '-' :: Nat.toDigits 10 n.natAbs else Nat.toDigits 10 n.toNat
  | .oct => Nat.toDigits 8 (n % 4294967296).toNat
  | .hex => Nat.toDigits 16 (n % 4294967296).toNat

/-- Output of an `int` under `std::setw(width)`: its digits in the base of the
stream, filled on the left up to the width. -/
def ostream.write_int (os : ostream) (width : Nat) (n : Int) : ostream :=
  { os with out := os.out ++
      (List.replicate (width - (int_text os.base n).length) os.fill ++ int_text os.base n) }

/-- What the renderers take from the C++ implementation without the source
fixing it: the text `os << d` writes for a double, the text that `os << p`
writes for the address `p` of a wide string literal, and whether plain `char`
is a signed type. -/
structure platform where
  double_text : double_t → List Char
  address_text : String → List Char
  char_signed : Bool

/-- The characters of `c_str()` up to the terminating zero, which is where the
loops of the string writers stop. -/
def c_str (s : String) : List Char :=
  s.data.takeWhile (fun c => c ≠ Char.ofNat 0)

/-- The function `std::iscntrl` (and `std::iswcntrl`) in the C locale: the codes
below 32 and the code 127.  A code from 128 on, which a signed `char` hands
over as a negative number, is not a control character. -/
def iscntrl (c : Char) : Bool :=
  decide (c.toNat < 32) || decide (c.toNat = 127)

/-- The value `int(*s)` of a character of a narrow string: its code, and for the
codes from 128 on the negative value a signed `char` has. -/
def narrow_code (pf : platform) (c : Char) : Int :=
  if pf.char_signed && decide (128 ≤ c.toNat) then (c.toNat : Int) - 256 else (c.toNat : Int)

/-- The fallback of the string writers for a control character: a literal `0`,
then `std::oct`, `std::setw(3)`, `std::setfill('0')` and the code as an `int`. -/
def put_octal (os : ostream) (code : Int) : ostream :=
  ostream.write_int { os.write "0" with base := basefield.oct, fill := '0' } 3 code

/-- The body of the loop of `var::_write_string(std::ostream&)`: the switch on
one character of a narrow string. -/
def put_escaped (os : ostream) (c : Char) : ostream :=
  if c = Char.ofNat 8 then os.write "\\b"
  else if c = '\r' then os.write "\\r"
  else if c = '\n' then os.write "\\n"
  else if c = Char.ofNat 12 then os.write "\\f"
  else if c = '\t' then os.write "\\t"
  else if c = '\\' then os.write "\\\\"
  else if c = '"' then os.write "\\\""
  else if c = '/' then os.write "\\/"
  else if iscntrl c then put_octal os (c.toNat : Int)
  else os.put c

/-- The member `var::_write_string(std::ostream&)`. -/
def var._write_string (s : String) (os : ostream) : ostream :=
  ((c_str s).foldl put_escaped (os.put '"')).put '"'

/-- The body of the loop of `var::_write_wstring(std::ostream&)`.  On a narrow
stream a wide string literal is written as a pointer, that is as its address,
and a `wchar_t` as the integer it converts to. -/
def put_escaped_wchar (pf : platform) (os : ostream) (c : Char) : ostream :=
  if c = Char.ofNat 8 then { os with out := os.out ++ pf.address_text "\\b" }
  else if c = '\r' then { os with out := os.out ++ pf.address_text "\\r" }
  else if c = '\n' then { os with out := os.out ++ pf.address_text "\\n" }
  else if c = Char.ofNat 12 then { os with out := os.out ++ pf.address_text "\\f" }
  else if c = '\t' then { os with out := os.out ++ pf.address_text "\\t" }
  else if c = '\\' then { os with out := os.out ++ pf.address_text "\\\\" }
  else if c = '"' then { os with out := os.out ++ pf.address_text "\\\"" }
  else if c = '/' then { os with out := os.out ++ pf.address_text "\\/" }
  else if iscntrl c then
    ostream.write_int
      { os with out := os.out ++ pf.address_text "0", base := basefield.oct, fill := '0' }
      3 (c.toNat : Int)
  else os.write_int 0 (c.toNat : Int)

/-- The member `var::_write_wstring(std::ostream&)`. -/
def var._write_wstring (pf : platform) (s : String) (os : ostream) : ostream :=
  ((c_str s).foldl (put_escaped_wchar pf) (os.put '"')).put '"'

/-- The body of the loop of `var::_write_string(std::wostream&)`: the switch on
one character of a narrow string. -/
def wput_escaped (pf : platform) (os : ostream) (c : Char) : ostream :=
  if c = Char.ofNat 8 then os.write "\\b"
  else if c = '\r' then os.write "\\r"
  else if c = '\n' then os.write "\\n"
  else if c = Char.ofNat 12 then os.write "\\f"
  else if c = '\t' then os.write "\\t"
  else if c = '\\' then os.write "\\\\"
  else if c = '\'' then os.write "\\'"
  else if narrow_code pf c < 32 then put_octal os (narrow_code pf c)
  else os.put c

/-- The member `var::_write_string(std::wostream&)`. -/
def var._write_string_w (pf : platform) (s : String) (os : ostream) : ostream :=
  ((c_str s).foldl (wput_escaped pf) (os.put '\'')).put '\''

/-- The body of the loop of `var::_write_wstring(std::wostream&)`: the switch on
one character of a wide string. -/
def wput_escaped_wchar (os : ostream) (c : Char) : ostream :=
  if c = Char.ofNat 8 then os.write "\\b"
  else if c = '\r' then os.write "\\r"
  else if c = '\n' then os.write "\\n"
  else if c = Char.ofNat 12 then os.write "\\f"
  else if c = '\t' then os.write "\\t"
  else if c = '\\' then os.write "\\\\"
  else if c = '\'' then os.write "\\'"
  else if c < ' ' then put_octal os (c.toNat : Int)
  else os.put c

/-- The member `var::_write_wstring(std::wostream&)`. -/
def var._write_wstring_w (s : String) (os : ostream) : ostream :=
  ((c_str s).foldl wput_escaped_wchar (os.put '\'')).put '\''

/-- The loop of `var::_write_collection` over a sequence: a separator in front
of every element but the first, and the element written by `_write_var`. -/
def write_elements (rec : var → ostream × heap → Option (ostream × heap)) :
    List var → Bool → ostream × heap → Option (ostream × heap)
  | [], _, s => some s
  | v :: vs, first, s =>
    match rec v (if first then s else (s.1.write ", ", s.2)) with
    | .none => .none
    | some s1 => write_elements rec vs false s1

/-- The loop of `var::_write_collection` over a mapping: a separator in front of
every key but the first, the key written by `_write_var`, a colon, and the var
that the read-only key index `(*this)[*vi]` returns, written by `_write_var`. -/
def write_entries (rec : var → ostream × heap → Option (ostream × heap)) (self : var) :
    List var → Bool → ostream × heap → Option (ostream × heap)
  | [], _, s => some s
  | k :: ks, first, s =>
    match rec k (if first then s else (s.1.write ", ", s.2)) with
    | .none => .none
    | some s1 =>
      match var.index_key_const self k s1.2 with
      | (.error _, _) => .none
      | (.ok r, h2) =>
        match h2.read r with
        | .none => .none
        | some v =>
          match rec v (s1.1.write " : ", h2) with
          | .none => .none
          | some s2 => write_entries rec self ks false s2

/-- The member `var::_write_collection(std::ostream&)`, with `_write_var` for the
nested vars passed in.  Modelled from the spec: the iteration `begin()` ..
`end()` of `var.hpp`, which goes through the elements of a sequence in order
and through the keys of a mapping in sorted order. -/
def var._write_collection (rec : var → ostream × heap → Option (ostream × heap))
    (self : var) (s : ostream × heap) : Option (ostream × heap) :=
  match self with
  | .vector ptr =>
    (write_elements rec (s.2.vectors ptr) true (s.1.write "[ ", s.2)).map
      (fun s1 => (s1.1.write " ]", s1.2))
  | .map ptr =>
    (write_entries rec self ((s.2.maps ptr).map Prod.fst) true (s.1.write "\x7b ", s.2)).map
      (fun s1 => (s1.1.write " \x7d", s1.2))
  | _ => .none

/-- The member `var::_write_var(std::ostream&)`.  The first argument bounds the
depth of the nested calls: with 0 the call does not return. -/
def var._write_var (pf : platform) : Nat → var → ostream × heap → Option (ostream × heap)
  | 0, _, _ => .none
  | n + 1, x, s =>
    match x with
    | .null => some (s.1.write "null", s.2)
    | .bool b => some (s.1.write (if b then "true" else "false"), s.2)
    | .int k => some (s.1.write_int 0 k, s.2)
    | .double d => some ({ s.1 with out := s.1.out ++ pf.double_text d }, s.2)
    | .string t => some (var._write_string t s.1, s.2)
    | .wstring t => some (var._write_wstring pf t s.1, s.2)
    | .vector ptr => var._write_collection (var._write_var pf n) (.vector ptr) s
    | .map ptr => var._write_collection (var._write_var pf n) (.map ptr) s

/-- The member `var::_write_collection(std::wostream&)`. -/
def var._write_collection_w (rec : var → ostream × heap → Option (ostream × heap))
    (self : var) (s : ostream × heap) : Option (ostream × heap) :=
  match self with
  | .vector ptr =>
    (write_elements rec (s.2.vectors ptr) true (s.1.write "[ ", s.2)).map
      (fun s1 => (s1.1.write " ]", s1.2))
  | .map ptr =>
    (write_entries rec self ((s.2.maps ptr).map Prod.fst) true (s.1.write "\x7b ", s.2)).map
      (fun s1 => (s1.1.write " \x7d", s1.2))
  | _ => .none

/-- The member `var::_write_var(std::wostream&)`. -/
def var._write_var_w (pf : platform) : Nat → var → ostream × heap → Option (ostream × heap)
  | 0, _, _ => .none
  | n + 1, x, s =>
    match x with
    | .null => some (s.1.write "null", s.2)
    | .bool b => some (s.1.write (if b then "true" else "false"), s.2)
    | .int k => some (s.1.write_int 0 k, s.2)
    | .double d => some ({ s.1 with out := s.1.out ++ pf.double_text d }, s.2)
    | .string t => some (var._write_string_w pf t s.1, s.2)
    | .wstring t => some (var._write_wstring_w t s.1, s.2)
    | .vector ptr => var._write_collection_w (var._write_var_w pf n) (.vector ptr) s
    | .map ptr => var._write_collection_w (var._write_var_w pf n) (.map ptr) s

/-- The image of a character of a narrow string in the byte-oriented rendering,
as the spec words it: an escape for the backslash, the double quote, the
newline, backspace, carriage return, form feed, tab and the slash, and the
character itself otherwise. -/
def escape_image (c : Char) : List Char :=
  if c = '\\' then ['\\', '\\']
  else if c = '"' then ['\\', '"']
  else if c = '\n' then ['\\', 'n']
  else if c = Char.ofNat 8 then ['\\', 'b']
  else if c = '\r' then ['\\', 'r']
  else if c = Char.ofNat 12 then ['\\', 'f']
  else if c = '\t' then ['\\', 't']
  else if c = '/' then ['\\', '/']
  else [c]

/-- The image of a character in the wide-character rendering, as the spec words
it: an escape for backspace, carriage return, newline, form feed, tab, the
backslash and the single quote, and the character itself otherwise. -/
def wide_image (c : Char) : List Char :=
  if c = Char.ofNat 8 then ['\\', 'b']
  else if c = '\r' then ['\\', 'r']
  else if c = '\n' then ['\\', 'n']
  else if c = Char.ofNat 12 then ['\\', 'f']
  else if c = '\t' then ['\\', 't']
  else if c = '\\' then ['\\', '\\']
  else if c = '\'' then ['\\', '\'']
  else [c]

/-- The five control characters that have an escape of their own: backspace,
carriage return, newline, form feed and tab. -/
def escaped_control (c : Char) : Bool :=
  decide (c = Char.ofNat 8) || decide (c = '\r') || decide (c = '\n') ||
    decide (c = Char.ofNat 12) || decide (c = '\t')

/-- The stream with a text put in front of what it has written. -/
def ostream.prepend (t : List Char) (os : ostream) : ostream :=
  { os with out := t ++ os.out }

/-- A loop that writes items one after the other with the separator `, ` in
front of every item but the first. -/
def write_items {α : Type} (item : α → ostream × heap → Option (ostream × heap)) :
    List α → Bool → ostream × heap → Option (ostream × heap)
  | [], _, s => some s
  | a :: as, first, s =>
    match item a (if first then s else (s.1.write ", ", s.2)) with
    | .none => .none
    | some s1 => write_items item as false s1

/-- An entry of a mapping written as the spec words it: the key, ` : `, the
value, both by `_write_var`. -/
def write_pair (rec : var → ostream × heap → Option (ostream × heap)) (e : var × var)
    (s : ostream × heap) : Option (ostream × heap) :=
  match rec e.1 s with
  | .none => .none
  | some s1 => rec e.2 (s1.1.write " : ", s1.2)

/-- The texts of the items of a list: each item is written on its own, to a
stream that has nothing written yet and is in the formatting state the item
before it left.  The result also has the stream and heap after the last item. -/
def item_texts {α : Type} (item : α → ostream × heap → Option (ostream × heap)) :
    List α → ostream × heap → Option (List (List Char) × (ostream × heap))
  | [], s => some ([], ({ s.1 with out := [] }, s.2))
  | a :: as, s =>
    match item a ({ s.1 with out := [] }, s.2) with
    | .none => .none
    | some s1 =>
      match item_texts item as s1 with
      | .none => .none
      | some r => some (s1.1.out :: r.1, r.2)

/-- The rendering of a collection as the spec words it: after what the stream
`os` had written come the opening bracket, the texts joined by `, `, and the
closing bracket. -/
def bracketed (opening closing : String) (os : ostream)
    (r : List (List Char) × (ostream × heap)) : ostream × heap :=
  ({ r.2.1 with out := os.out ++ (opening.data ++ (", ".data.intercalate r.1 ++ closing.data)) },
    r.2.2)

/-- Whether a var can be written within `n` nested calls of `_write_var`: a
scalar or string with one, a container with one more than its elements, keys
and values. -/
def depth_le (h : heap) : Nat → var → Bool
  | 0, _ => false
  | n + 1, x =>
    match x with
    | .vector ptr => (h.vectors ptr).all (depth_le h n)
    | .map ptr => (h.maps ptr).all (fun e => depth_le h n e.1 && depth_le h n e.2)
    | _ => true

/-- Add the pairs of a list one by one to the receiver with append(key, value),
stopping at the first failure. -/
def insert_all (self : var) : List (var × var) → heap → Except exception var × heap
  | [], h => (.ok self, h)
  | kv :: kvs, h =>
    match var.append_kv self kv.1 kv.2 h with
    | (.ok _, h1) => insert_all self kvs h1
    | (.error e, h1) => (.error e, h1)

/-- A writer commutes with putting text in front: what it writes and what it
returns do not depend on what the stream has written before. -/
def frames {α : Type} (item : α → ostream × heap → Option (ostream × heap)) : Prop :=
  ∀ (t : List Char) (a : α) (os : ostream) (h : heap),
    item a (os.prepend t, h) = (item a (os, h)).map (fun s => (s.1.prepend t, s.2))

/-- The entries of a mapping after the pairs of a list have been inserted one by
one with `std::map::insert`. -/
def insert_pairs (m : map_type) (l : List (var × var)) : map_type :=
  l.foldl (fun acc kv => (map_type.insert acc kv).2) m

/-! ## The comparator -/

theorem basic_string_less_irrefl (s : List Char) : basic_string_less s s = false := by
  induction s with
  | nil => rfl
  | cons a s ih => simp [basic_string_less, ih]

theorem basic_string_less_trans :
    ∀ (s t u : List Char), basic_string_less s t = true → basic_string_less t u = true →
      basic_string_less s u = true
  | [], [], _ => by simp [basic_string_less]
  | [], _ :: _, [] => by simp [basic_string_less]
  | [], _ :: _, _ :: _ => by simp [basic_string_less]
  | _ :: _, [], _ => by simp [basic_string_less]
  | _ :: _, _ :: _, [] => by simp [basic_string_less]
  | a :: s, b :: t, c :: u => by
    intro h1 h2
    simp only [basic_string_less] at h1 h2 ⊢
    rcases lt_trichotomy a b with hab | hab | hab
    · rcases lt_trichotomy b c with hbc | hbc | hbc
      · simp [lt_trans hab hbc]
      · subst hbc; simp [hab]
      · simp [hbc, lt_asymm hbc] at h2
    · subst hab
      rcases lt_trichotomy a c with hbc | hbc | hbc
      · simp [hbc]
      · subst hbc
        simp only [lt_irrefl, if_false] at h1 h2 ⊢
        exact basic_string_less_trans s t u h1 h2
      · simp [hbc, lt_asymm hbc] at h2
    · simp [hab, lt_asymm hab] at h1

/-- Two character sequences neither of which is less than the other are equal. -/
theorem basic_string_less_total :
    ∀ (s t : List Char), basic_string_less s t = false → basic_string_less t s = false → s = t
  | [], [] => by simp
  | [], _ :: _ => by simp [basic_string_less]
  | _ :: _, [] => by simp [basic_string_less]
  | a :: s, b :: t => by
    intro h1 h2
    simp only [basic_string_less] at h1 h2
    rcases lt_trichotomy a b with hab | hab | hab
    · simp [hab] at h1
    · subst hab
      simp only [lt_irrefl, if_false] at h1 h2
      rw [basic_string_less_total s t h1 h2]
    · simp [hab] at h2


theorem double_lt_irrefl (a : double_t) : double_t.lt a a = false := by
  simp [double_t.lt]

theorem double_lt_trans (a b c : double_t) (h1 : double_t.lt a b = true)
    (h2 : double_t.lt b c = true) : double_t.lt a c = true := by
  simp only [double_t.lt, Bool.and_eq_true, Bool.not_eq_true', decide_eq_true_eq] at h1 h2 ⊢
  exact ⟨⟨h1.1.1, h2.1.2⟩, lt_trans h1.2 h2.2⟩

theorem less_var_irrefl (a : var) : var.less_var a a = false := by
  cases a <;> simp [var.less_var, double_lt_irrefl, basic_string_less_irrefl]

theorem less_var_trans (a b c : var) (h1 : var.less_var a b = true)
    (h2 : var.less_var b c = true) : var.less_var a c = true := by
  cases a <;> cases b <;> cases c <;>
    simp [var.less_var, var.type, code.ord] at h1 h2 ⊢
  all_goals first
    | exact lt_trans h1 h2
    | exact double_lt_trans _ _ _ h1 h2
    | exact basic_string_less_trans _ _ _ h1 h2

theorem less_var_asymm (a b : var) (h : var.less_var a b = true) :
    var.less_var b a = false := by
  cases hb : var.less_var b a
  · rfl
  · have := less_var_trans a b a h hb
    simp [less_var_irrefl] at this

theorem double_equiv_trans (a b c : double_t) (hb : b.isnan = false)
    (h1 : double_t.lt a b = false) (h2 : double_t.lt b a = false)
    (h3 : double_t.lt b c = false) (h4 : double_t.lt c b = false) :
    double_t.lt a c = false ∧ double_t.lt c a = false := by
  simp only [double_t.lt, hb, Bool.not_false, Bool.and_true, Bool.true_and,
    Bool.and_eq_false_imp, Bool.not_eq_true', decide_eq_false_iff_not, not_lt] at *
  constructor <;> intro hh <;>
    simp only [Bool.and_eq_true, Bool.not_eq_true'] at hh <;>
    obtain ⟨x, y⟩ := hh <;>
    have := h1 (by assumption) <;> have := h2 (by assumption) <;>
    have := h3 (by assumption) <;> have := h4 (by assumption) <;> omega

theorem var_equiv_trans (a b c : var) (hb : b.isnan = false)
    (h1 : var.equiv a b = true) (h2 : var.equiv b c = true) : var.equiv a c = true := by
  cases a <;> cases b <;> cases c <;>
    simp [var.equiv, var.less_var, var.type, code.ord, var.isnan] at h1 h2 hb ⊢
  all_goals first
    | exact ⟨le_trans h2.1 h1.1, le_trans h1.2 h2.2⟩
    | exact double_equiv_trans _ _ _ hb h1.1 h1.2 h2.1 h2.2
    | (rw [basic_string_less_total _ _ h1.1 h1.2]; exact h2)

/-- C4, counterexample: `less_var` is not a strict weak order over all vars.  With
a = 1.0, b = NaN, c = 2.0 (all of kind double) a and b are incomparable, b and c
are incomparable, yet a < c. -/
theorem less_var_not_strict_weak_order :
    ¬ (∀ a b c : var,
        var.less_var a a = false ∧
        (var.less_var a b = true → var.less_var b c = true → var.less_var a c = true) ∧
        ((var.less_var a b = false ∧ var.less_var b a = false) →
          (var.less_var b c = false ∧ var.less_var c b = false) →
          (var.less_var a c = false ∧ var.less_var c a = false))) := by
  intro h
  have h1 := (h (.double double_one) (.double double_nan) (.double double_two)).2.2
    (by decide) (by decide)
  revert h1
  decide

/-- C4, amended: over all vars `less_var` is irreflexive and transitive, and
incomparability is transitive through every middle var b that is not a NaN
double: if a, b are incomparable and b, c are incomparable then a, c are. -/
theorem less_var_strict_order (a b c : var) :
    var.less_var a a = false ∧
    (var.less_var a b = true → var.less_var b c = true → var.less_var a c = true) ∧
    (b.isnan = false →
      (var.less_var a b = false ∧ var.less_var b a = false) →
      (var.less_var b c = false ∧ var.less_var c b = false) →
      (var.less_var a c = false ∧ var.less_var c a = false)) := by
  refine ⟨less_var_irrefl a, less_var_trans a b c, ?_⟩
  intro hb h1 h2
  have e1 : var.equiv a b = true := by simp [var.equiv, h1.1, h1.2]
  have e2 : var.equiv b c = true := by simp [var.equiv, h2.1, h2.2]
  have e3 := var_equiv_trans a b c hb e1 e2
  simpa [var.equiv] using e3

/-- C4, witness: the amended statement at a = NaN, b = 1.0, c = 1.0 and, for
transitivity, at the ints 1, 2, 3. -/
theorem less_var_strict_order_witness :
    var.isnan (.double double_one) = false ∧
    (var.less_var (.double double_nan) (.double double_one) = false ∧
      var.less_var (.double double_one) (.double double_nan) = false) ∧
    (var.less_var (.double double_nan) (.double double_one) = false ∧
      var.less_var (.double double_one) (.double double_nan) = false) ∧
    var.less_var (.int 1) (.int 3) = true :=
  ⟨by decide, by decide,
    (less_var_strict_order (.double double_nan) (.double double_one) (.double double_one)).2.2
      (by decide) (by decide) (by decide),
    (less_var_strict_order (.int 1) (.int 2) (.int 3)).2.1 (by decide) (by decide)⟩

/-- C5: for vars a, b of different kinds exactly one of a < b and b < a holds,
and a < b holds exactly when the kind of a stands before the kind of b in the
list null, bool, int, double, string, wide string, sequence, mapping; and a null
is never less than a null. -/
theorem less_var_orders_kinds (a b : var) :
    (a.type ≠ b.type →
      (var.less_var a b = true ↔ a.type.ord < b.type.ord) ∧
      (var.less_var a b = true ∨ var.less_var b a = true) ∧
      ¬ (var.less_var a b = true ∧ var.less_var b a = true)) ∧
    (a.type = code.type_null → b.type = code.type_null → var.less_var a b = false) := by
  constructor
  · intro h
    cases a <;> cases b <;> simp [var.less_var, var.type, code.ord] at h ⊢
  · intro ha hb
    cases a <;> cases b <;> simp [var.less_var, var.type] at ha hb ⊢

/-- C5, witness: a bool and a string, and two nulls. -/
theorem less_var_orders_kinds_witness :
    (var.bool true).type ≠ (var.string "a").type ∧
    var.less_var (.bool true) (.string "a") = true ∧
    var.less_var (.string "a") (.bool true) = false ∧
    var.less_var .null .null = false :=
  ⟨by decide,
    ((less_var_orders_kinds (.bool true) (.string "a")).1 (by decide)).1.mpr (by decide),
    by decide,
    (less_var_orders_kinds .null .null).2 rfl rfl⟩

/-! ## The standard map operations -/

open map_type

theorem lower_bound_le (m : map_type) (k : var) : lower_bound m k ≤ m.length := by
  induction m with
  | nil => simp [lower_bound]
  | cons e es ih =>
    simp only [lower_bound]
    split
    · simp only [List.length_cons]; omega
    · simp

theorem lower_bound_take (m : map_type) (k : var) :
    ∀ e ∈ m.take (lower_bound m k), var.less_var e.1 k = true := by
  induction m with
  | nil => simp [lower_bound]
  | cons e es ih =>
    simp only [lower_bound]
    split
    · rename_i hlt
      intro x hx
      simp only [List.take_succ_cons, List.mem_cons] at hx
      rcases hx with rfl | hx
      · exact hlt
      · exact ih x hx
    · simp

theorem lower_bound_get (m : map_type) (k : var) (e : var × var)
    (he : m[lower_bound m k]? = some e) : var.less_var e.1 k = false := by
  induction m with
  | nil => simp [lower_bound] at he
  | cons x xs ih =>
    simp only [lower_bound] at he
    split at he
    · simp only [List.getElem?_cons_succ] at he
      exact ih he
    · simp only [List.getElem?_cons_zero, Option.some.injEq] at he
      subst he
      simpa using ‹¬ var.less_var x.1 k = true›

theorem lower_bound_append (l1 l2 : map_type) (k : var)
    (h : ∀ e ∈ l1, var.less_var e.1 k = true) :
    lower_bound (l1 ++ l2) k = l1.length + lower_bound l2 k := by
  induction l1 with
  | nil => simp
  | cons x xs ih =>
    have hx := h x (List.mem_cons_self _ _)
    have ih1 := ih (fun e he => h e (List.mem_cons_of_mem _ he))
    show lower_bound (x :: (xs ++ l2)) k = _
    rw [lower_bound, if_pos hx, ih1, List.length_cons]
    omega

/-- The entry at the lower bound of an absent key, if there is one, has a
greater key. -/
theorem absent_get (m : map_type) (k : var) (hk : absent k m) (e : var × var)
    (he : m[lower_bound m k]? = some e) : var.less_var k e.1 = true := by
  have h1 := lower_bound_get m k e he
  have h2 := hk e (List.getElem?_mem he)
  simp only [var.equiv, h1, Bool.not_false, Bool.true_and, Bool.not_eq_false'] at h2
  exact h2

theorem insert_absent (m : map_type) (kv : var × var) (hk : absent kv.1 m) :
    map_type.insert m kv = ((lower_bound m kv.1, true),
      m.take (lower_bound m kv.1) ++ kv :: m.drop (lower_bound m kv.1)) := by
  cases he : m[lower_bound m kv.1]? with
  | none => simp [map_type.insert, he]
  | some e => simp [map_type.insert, he, absent_get m kv.1 hk e he]

/-- In an ascending map that has a key equivalent to `k`, the lower bound of `k`
is an entry whose key is equivalent to `k`. -/
theorem present_get (m : map_type) (k : var) (hm : ascending m) (hk : ¬ absent k m) :
    ∃ e, m[lower_bound m k]? = some e ∧ var.less_var e.1 k = false ∧
      var.less_var k e.1 = false := by
  induction m with
  | nil => exact absurd (fun e he => by simp at he) hk
  | cons x xs ih =>
    simp only [ascending, List.pairwise_cons] at hm
    by_cases hx : var.less_var x.1 k = true
    · have hk1 : ¬ absent k xs := by
        intro habs
        apply hk
        intro e he
        rcases List.mem_cons.mp he with rfl | he
        · simp [var.equiv, hx]
        · exact habs e he
      obtain ⟨e, h1, h2, h3⟩ := ih hm.2 hk1
      refine ⟨e, ?_, h2, h3⟩
      simp only [lower_bound, hx, if_true, List.getElem?_cons_succ]
      exact h1
    · refine ⟨x, by simp [lower_bound, hx], by simpa using hx, ?_⟩
      cases hkx : var.less_var k x.1
      · rfl
      · exfalso
        apply hk
        intro e he
        rcases List.mem_cons.mp he with rfl | he
        · simp [var.equiv, hkx]
        · have := less_var_trans k x.1 e.1 hkx (hm.1 e he)
          simp [var.equiv, this]

theorem insert_present (m : map_type) (kv : var × var) (hm : ascending m)
    (hk : ¬ absent kv.1 m) :
    map_type.insert m kv = ((lower_bound m kv.1, false), m) := by
  obtain ⟨e, h1, _, h3⟩ := present_get m kv.1 hm hk
  simp [map_type.insert, h1, h3]

theorem ascending_insert (m : map_type) (kv : var × var) (hm : ascending m) :
    ascending (map_type.insert m kv).2 := by
  by_cases hk : absent kv.1 m
  · rw [insert_absent m kv hk]
    show ascending (m.take (lower_bound m kv.1) ++ kv :: m.drop (lower_bound m kv.1))
    have hsplit := List.take_append_drop (lower_bound m kv.1) m
    have hm1 : ascending (m.take (lower_bound m kv.1) ++ m.drop (lower_bound m kv.1)) := by
      rw [hsplit]; exact hm
    simp only [ascending, List.pairwise_append, List.pairwise_cons, List.mem_cons] at hm1 ⊢
    refine ⟨hm1.1, ⟨?_, hm1.2.1⟩, ?_⟩
    · intro b hb
      have hb1 := hk b (List.mem_of_mem_drop hb)
      cases hdrop : m.drop (lower_bound m kv.1) with
      | nil => rw [hdrop] at hb; simp at hb
      | cons y ys =>
        have hy : m[lower_bound m kv.1]? = some y := by
          have := List.getElem?_drop m (lower_bound m kv.1) 0
          rw [hdrop] at this
          simpa using this.symm
        have hky := absent_get m kv.1 hk y hy
        rw [hdrop] at hb hm1
        rcases List.mem_cons.mp hb with rfl | hb
        · exact hky
        · exact less_var_trans _ _ _ hky ((List.pairwise_cons.mp hm1.2.1).1 b hb)
    · intro a ha b hb
      rcases hb with rfl | hb
      · exact lower_bound_take m b.1 a ha
      · exact hm1.2.2 a ha b hb
  · rw [insert_present m kv hm hk]
    exact hm

/-! ## Key indexing -/

theorem getElem?_append_cons_length {α : Type} (l1 l2 : List α) (a : α) :
    (l1 ++ a :: l2)[l1.length]? = some a := by
  rw [List.getElem?_append_right (le_refl _)]
  simp

theorem set_append_cons_length {α : Type} (l1 l2 : List α) (a b : α) :
    (l1 ++ a :: l2).set l1.length b = l1 ++ b :: l2 := by
  induction l1 with
  | nil => rfl
  | cons x xs ih => simp [ih]

theorem length_take_lower_bound (m : map_type) (k : var) :
    (m.take (lower_bound m k)).length = lower_bound m k := by
  rw [List.length_take]
  exact min_eq_left (lower_bound_le m k)

theorem heap_update_maps_self (h : heap) (ptr : Nat) :
    ({ h with maps := Function.update h.maps ptr (h.maps ptr) } : heap) = h := by
  cases h
  simp

theorem heap_update_vectors_self (h : heap) (ptr : Nat) :
    ({ h with vectors := Function.update h.vectors ptr (h.vectors ptr) } : heap) = h := by
  cases h
  simp

/-- Key indexing with an absent key puts the entry (k, null) at the lower bound
of k and gives a reference to its value. -/
theorem index_var_visitor_absent (h : heap) (ptr : Nat) (k : var)
    (hk : absent k (h.maps ptr)) :
    var.index_var_visitor k h (.map ptr) =
      (.ok (.mapped ptr (lower_bound (h.maps ptr) k)),
        { h with maps := (Function.update h.maps ptr
            ((h.maps ptr).take (lower_bound (h.maps ptr) k) ++
              (k, var.null) :: (h.maps ptr).drop (lower_bound (h.maps ptr) k))) }) := by
  have hins := insert_absent (h.maps ptr) (k, none) hk
  cases he : (h.maps ptr)[lower_bound (h.maps ptr) k]? with
  | none =>
    simp only [var.index_var_visitor, he, insert_hint, hins, if_true]
    rfl
  | some e =>
    simp only [var.index_var_visitor, he, insert_hint, hins,
      absent_get (h.maps ptr) k hk e he, if_true]
    rfl

/-- Key indexing with a key that stands behind smaller keys only is a pure
lookup: it gives a reference to the value of that entry and leaves the heap as
it is. -/
theorem index_var_visitor_at (h : heap) (ptr : Nat) (k v : var) (l1 l2 : map_type)
    (hm : h.maps ptr = l1 ++ (k, v) :: l2)
    (hl : ∀ e ∈ l1, var.less_var e.1 k = true) :
    var.index_var_visitor k h (.map ptr) = (.ok (.mapped ptr l1.length), h) := by
  have hlb : lower_bound (h.maps ptr) k = l1.length := by
    rw [hm, lower_bound_append l1 _ k hl]
    simp [lower_bound, less_var_irrefl]
  have hget : (h.maps ptr)[l1.length]? = some (k, v) := by
    rw [hm]; exact getElem?_append_cons_length l1 l2 (k, v)
  simp [var.index_var_visitor, hlb, hget, less_var_irrefl]

/-- C1: key indexing a mapping with an absent key k succeeds; it puts the entry
(k, null) into the mapping, every former entry staying in place, and leaves all
other containers alone; the reference it returns reads null; count() grows from
the former size to that size plus one.  After an assignment of any var v
through that reference a second key indexing with k returns the same reference,
which now reads v, the heap is not changed by that second call, and count()
stays at the former size plus one. -/
theorem index_key_auto_vivification (h : heap) (ptr : Nat) (k : var)
    (hk : absent k (h.maps ptr)) :
    ∃ (it : Nat) (h1 : heap),
      var.index_key (.map ptr) k h = (.ok (.mapped ptr it), h1) ∧
      h1.maps ptr = (h.maps ptr).take it ++ (k, var.null) :: (h.maps ptr).drop it ∧
      (∀ q, q ≠ ptr → h1.maps q = h.maps q) ∧ h1.vectors = h.vectors ∧
      h1.read (.mapped ptr it) = some var.null ∧
      (var.count (.map ptr) h).1 = .ok (h.maps ptr).length ∧
      (var.count (.map ptr) h1).1 = .ok ((h.maps ptr).length + 1) ∧
      ∀ v : var,
        var.index_key (.map ptr) k (h1.assign (.mapped ptr it) v) =
          (.ok (.mapped ptr it), h1.assign (.mapped ptr it) v) ∧
        (h1.assign (.mapped ptr it) v).read (.mapped ptr it) = some v ∧
        (var.count (.map ptr) (h1.assign (.mapped ptr it) v)).1 =
          .ok ((h.maps ptr).length + 1) := by
  have hlen := length_take_lower_bound (h.maps ptr) k
  have hsplit := List.take_append_drop (lower_bound (h.maps ptr) k) (h.maps ptr)
  generalize hit : lower_bound (h.maps ptr) k = it at hlen hsplit
  generalize hl1 : (h.maps ptr).take it = l1 at hlen hsplit
  generalize hl2 : (h.maps ptr).drop it = l2 at hsplit
  have hl : ∀ e ∈ l1, var.less_var e.1 k = true := by
    intro e he
    apply lower_bound_take (h.maps ptr) k e
    rw [hit, hl1]; exact he
  have hcount : (h.maps ptr).length + 1 = (l1 ++ (k, var.null) :: l2).length := by
    rw [← hsplit]; simp; omega
  refine ⟨it, { h with maps := (Function.update h.maps ptr (l1 ++ (k, var.null) :: l2)) },
    ?_, ?_, ?_, rfl, ?_, rfl, ?_, ?_⟩
  · rw [var.index_key, index_var_visitor_absent h ptr k hk, hit, hl1, hl2]
  · simp only [Function.update_same, hl1, hl2]
  · intro q hq
    simp [Function.update_noteq hq]
  · subst hlen
    simp only [heap.read, Function.update_same, getElem?_append_cons_length, Option.map_some']
  · simp only [var.count, var.count_visitor, Function.update_same]
    rw [hcount]
  · intro v
    subst hlen
    have hassign : (({ h with maps := (Function.update h.maps ptr
          (l1 ++ (k, var.null) :: l2)) } : heap).assign (.mapped ptr l1.length) v).maps ptr
        = l1 ++ (k, v) :: l2 := by
      simp only [heap.assign, Function.update_same, getElem?_append_cons_length,
        set_append_cons_length]
    refine ⟨?_, ?_, ?_⟩
    · rw [var.index_key]
      exact index_var_visitor_at _ ptr k v l1 l2 hassign hl
    · simp only [heap.read, hassign, getElem?_append_cons_length, Option.map_some']
    · simp only [var.count, var.count_visitor, hassign]
      rw [hcount]; simp

/-- C1, witness: key indexing the empty mapping with the string "a". -/
theorem index_key_auto_vivification_witness :
    absent (.string "a") (heap.empty.maps 0) ∧
    ∃ (it : Nat) (h1 : heap),
      var.index_key (.map 0) (.string "a") heap.empty = (.ok (.mapped 0 it), h1) ∧
      h1.read (.mapped 0 it) = some var.null :=
  ⟨by decide,
    let ⟨it, h1, a, _, _, _, b, _⟩ :=
      index_key_auto_vivification heap.empty 0 (.string "a") (by decide)
    ⟨it, h1, a, b⟩⟩

/-! ## Sequences -/

theorem int_of_size_small (k : Nat) (hk : k < 2147483648) : int_of_size k = (k : Int) := by
  unfold int_of_size
  have : k % 4294967296 = k := Nat.mod_eq_of_lt (by omega)
  rw [this, if_pos hk]

theorem append_all_vector (ptr : Nat) (vs : List var) (h : heap) :
    append_all (.vector ptr) vs h =
      (.ok (.vector ptr),
        { h with vectors := (Function.update h.vectors ptr (h.vectors ptr ++ vs)) }) := by
  induction vs generalizing h with
  | nil =>
    simp only [append_all, List.append_nil]
    rw [heap_update_vectors_self]
  | cons v vs ih =>
    simp only [append_all, var.append, var.append_value_visitor]
    rw [ih]
    simp

/-- The integer index of a sequence shorter than 2^31. -/
theorem index_int_visitor_vector (h : heap) (ptr : Nat) (n : Int)
    (hk : (h.vectors ptr).length < 2147483648) :
    var.index_int_visitor n h (.vector ptr) =
      if n < 0 ∨ n ≥ ((h.vectors ptr).length : Int) then
        (.error ⟨"[int] out of range in vector"⟩, h)
      else (.ok (.element ptr n.toNat), h) := by
  simp only [var.index_int_visitor, int_of_size_small _ hk]

/-- C2, amended: for every list of fewer than 2^31 vars, appending them one by
one to an empty sequence succeeds and gives the sequence of exactly these vars
in this order; count() is the number of vars and the integer index i, for every
0 <= i < n, returns a reference to the i-th var appended, leaving the heap as it
is. -/
theorem append_all_sequence (h : heap) (ptr : Nat) (vs : List var)
    (he : h.vectors ptr = []) (hn : vs.length < 2147483648) :
    ∃ h1 : heap,
      append_all (.vector ptr) vs h = (.ok (.vector ptr), h1) ∧
      h1.vectors ptr = vs ∧
      (var.count (.vector ptr) h1).1 = .ok vs.length ∧
      ∀ i : Nat, i < vs.length →
        var.index (.vector ptr) (i : Int) h1 = (.ok (.element ptr i), h1) ∧
        h1.read (.element ptr i) = vs[i]? ∧ (vs[i]?).isSome = true := by
  refine ⟨{ h with vectors := (Function.update h.vectors ptr (h.vectors ptr ++ vs)) },
    append_all_vector ptr vs h, ?_, ?_, ?_⟩
  · simp [he]
  · simp [var.count, var.count_visitor, he]
  · intro i hi
    refine ⟨?_, ?_, ?_⟩
    · rw [var.index, index_int_visitor_vector _ _ _ (by simpa [he] using hn)]
      simp [he]
      omega
    · simp [heap.read, he]
    · simp [hi]

/-- C2, witness: appending the ints 1, 2, 3 to an empty sequence. -/
theorem append_all_sequence_witness :
    heap.empty.vectors 0 = [] ∧ [var.int 1, var.int 2, var.int 3].length < 2147483648 ∧
    ∃ h1 : heap,
      append_all (.vector 0) [var.int 1, var.int 2, var.int 3] heap.empty =
        (.ok (.vector 0), h1) ∧
      h1.vectors 0 = [var.int 1, var.int 2, var.int 3] ∧
      (var.count (.vector 0) h1).1 = .ok 3 :=
  ⟨rfl, by decide,
    let ⟨h1, a, b, c, _⟩ :=
      append_all_sequence heap.empty 0 [var.int 1, var.int 2, var.int 3] rfl (by decide)
    ⟨h1, a, b, c⟩⟩

theorem int_of_size_wraps : int_of_size 2147483648 = -2147483648 := by decide

/-- On a sequence of exactly 2^31 elements the size converts to a negative int,
so that the bounds check rejects the index 0. -/
theorem index_zero_of_length (h : heap) (ptr : Nat)
    (hlen : (h.vectors ptr).length = 2147483648) :
    (var.index (.vector ptr) 0 h).1 = .error ⟨"[int] out of range in vector"⟩ := by
  simp only [var.index, var.index_int_visitor, hlen, int_of_size_wraps]
  rw [if_pos (Or.inr (by omega))]

/-- C2, counterexample: after 2^31 nulls have been appended to an empty sequence
the integer index 0, which is within the sequence, throws out of range instead
of returning the first var appended. -/
theorem append_all_index_out_of_range :
    (0 : Nat) < (List.replicate 2147483648 var.null).length ∧
    (var.index (.vector 0) 0
      (append_all (.vector 0) (List.replicate 2147483648 var.null) heap.empty).2).1 =
        .error ⟨"[int] out of range in vector"⟩ := by
  refine ⟨?_, index_zero_of_length _ 0 ?_⟩
  · rw [List.length_replicate]; omega
  · rw [append_all_vector]
    simp only [Function.update_same, heap.empty, List.nil_append, List.length_replicate]

/-- C7, amended: on a sequence of size k < 2^31 the integer index n throws the
out-of-range exception if and only if n < 0 or n >= k; otherwise it returns a
reference to the element at position n and leaves the heap as it is.  Every
index into an empty sequence throws. -/
theorem index_int_sequence (h : heap) (ptr : Nat) (n : Int)
    (hk : (h.vectors ptr).length < 2147483648) :
    ((var.index (.vector ptr) n h).1 = .error ⟨"[int] out of range in vector"⟩ ↔
      (n < 0 ∨ n ≥ ((h.vectors ptr).length : Int))) ∧
    (¬ (n < 0 ∨ n ≥ ((h.vectors ptr).length : Int)) →
      var.index (.vector ptr) n h = (.ok (.element ptr n.toNat), h) ∧
      h.read (.element ptr n.toNat) = (h.vectors ptr)[n.toNat]? ∧
      ((h.vectors ptr)[n.toNat]?).isSome = true) ∧
    (h.vectors ptr = [] →
      var.index (.vector ptr) n h = (.error ⟨"[int] out of range in vector"⟩, h)) := by
  rw [var.index, index_int_visitor_vector h ptr n hk]
  refine ⟨?_, ?_, ?_⟩
  · by_cases hc : n < 0 ∨ n ≥ ((h.vectors ptr).length : Int)
    · simp [hc]
    · simp [hc]
  · intro hc
    refine ⟨by rw [if_neg hc], rfl, ?_⟩
    have : n.toNat < (h.vectors ptr).length := by omega
    simp [this]
  · intro he
    rw [if_pos]
    rw [he]
    simp only [List.length_nil, Nat.cast_zero]
    omega

/-- C7, witness: index 0 of the one-element sequence [7]. -/
theorem index_int_sequence_witness :
    ((heap.mk (fun _ => [var.int 7]) (fun _ => [])).vectors 0).length < 2147483648 ∧
    ¬ ((0 : Int) < 0 ∨
      (0 : Int) ≥ (((heap.mk (fun _ => [var.int 7]) (fun _ => [])).vectors 0).length : Int)) ∧
    var.index (.vector 0) 0 (heap.mk (fun _ => [var.int 7]) (fun _ => [])) =
      (.ok (.element 0 0), heap.mk (fun _ => [var.int 7]) (fun _ => [])) :=
  ⟨by decide, by decide,
    ((index_int_sequence (heap.mk (fun _ => [var.int 7]) (fun _ => [])) 0 0
      (by decide)).2.1 (by decide)).1⟩

/-- C7, counterexample: on a sequence of size k = 2^31 the index 0 satisfies
neither n < 0 nor n >= k, and yet the integer index throws out of range. -/
theorem index_int_sequence_overflow :
    ¬ ((0 : Int) < 0 ∨ (0 : Int) ≥ ((List.replicate 2147483648 var.null).length : Int)) ∧
    (var.index (.vector 0) 0
      ⟨fun _ => List.replicate 2147483648 var.null, fun _ => []⟩).1 =
        .error ⟨"[int] out of range in vector"⟩ := by
  refine ⟨?_, index_zero_of_length _ 0 ?_⟩
  · rw [List.length_replicate]; omega
  · simp only [List.length_replicate]

/-! ## Integer index of a mapping -/

theorem int_equiv_eq (e : var) (n : Int) (h1 : var.less_var e (.int n) = false)
    (h2 : var.less_var (.int n) e = false) : e = .int n := by
  cases e <;> simp [var.less_var, var.type, code.ord] at h1 h2 ⊢
  omega

theorem find_absent (m : map_type) (n : Int) (hk : ∀ e ∈ m, e.1 ≠ var.int n) :
    find m (.int n) = m.length := by
  cases he : m[lower_bound m (.int n)]? with
  | none => simp [find, he]
  | some e =>
    have h1 := lower_bound_get m (.int n) e he
    have h2 : var.less_var (.int n) e.1 = true := by
      cases hc : var.less_var (.int n) e.1
      · exact absurd (int_equiv_eq e.1 n h1 hc) (hk e (List.getElem?_mem he))
      · rfl
    simp [find, he, h2]

theorem find_at (k v : var) (l1 l2 : map_type)
    (hl : ∀ e ∈ l1, var.less_var e.1 k = true) :
    find (l1 ++ (k, v) :: l2) k = l1.length := by
  have hlb : lower_bound (l1 ++ (k, v) :: l2) k = l1.length := by
    rw [lower_bound_append l1 _ k hl]
    simp [lower_bound, less_var_irrefl]
  simp only [find, hlb, getElem?_append_cons_length, less_var_irrefl]
  simp

/-- In an ascending map the entries in front of an entry have smaller keys. -/
theorem ascending_split (l1 l2 : map_type) (kv : var × var)
    (hm : ascending (l1 ++ kv :: l2)) : ∀ e ∈ l1, var.less_var e.1 kv.1 = true := by
  intro e he
  simp only [ascending, List.pairwise_append] at hm
  exact hm.2.2 e he kv (List.mem_cons_self _ _)

/-- C6: on a mapping (its keys ascending) the integer index n throws the
not-found exception when no key is the int n, and returns a reference to the
value of the key int n when that key is there; in both cases the heap, and so
the mapping and its count(), is what it was before the call. -/
theorem index_int_mapping (h : heap) (ptr : Nat) (n : Int) (hm : ascending (h.maps ptr)) :
    ((∀ e ∈ h.maps ptr, e.1 ≠ var.int n) →
      var.index (.map ptr) n h = (.error ⟨"[int] not found in map"⟩, h)) ∧
    (∀ v, (var.int n, v) ∈ h.maps ptr →
      ∃ it, var.index (.map ptr) n h = (.ok (.mapped ptr it), h) ∧
        (h.maps ptr)[it]? = some (var.int n, v) ∧
        h.read (.mapped ptr it) = some v) ∧
    (var.index (.map ptr) n h).2 = h ∧
    (var.count (.map ptr) (var.index (.map ptr) n h).2).1 = (var.count (.map ptr) h).1 := by
  have hsame : (var.index (.map ptr) n h).2 = h := by
    simp only [var.index, var.index_int_visitor]
    split <;> rfl
  refine ⟨?_, ?_, hsame, by rw [hsame]⟩
  · intro hk
    simp [var.index, var.index_int_visitor, find_absent _ n hk]
  · intro v hv
    obtain ⟨l1, l2, hsplit⟩ := List.append_of_mem hv
    have hl := ascending_split l1 l2 (var.int n, v) (hsplit ▸ hm)
    have hfind := find_at (var.int n) v l1 l2 hl
    have hget := getElem?_append_cons_length l1 l2 (var.int n, v)
    rw [← hsplit] at hfind hget
    refine ⟨l1.length, ?_, hget, ?_⟩
    · have hne : l1.length ≠ (h.maps ptr).length := by
        rw [hsplit]; simp
      simp only [var.index, var.index_int_visitor, hfind, if_neg hne]
    · simp only [heap.read, hget, Option.map_some']

/-- C6, witness: the mapping with the one entry 4 -> "x", indexed with 5. -/
theorem index_int_mapping_witness :
    ascending ((heap.mk (fun _ => []) (fun _ => [(var.int 4, var.string "x")])).maps 0) ∧
    var.index (.map 0) 5 (heap.mk (fun _ => []) (fun _ => [(var.int 4, var.string "x")])) =
      (.error ⟨"[int] not found in map"⟩,
        heap.mk (fun _ => []) (fun _ => [(var.int 4, var.string "x")])) :=
  ⟨by decide,
    (index_int_mapping (heap.mk (fun _ => []) (fun _ => [(var.int 4, var.string "x")])) 0 5
      (by decide)).1 (by decide)⟩

/-! ## Appending to a mapping -/

theorem insert_idempotent (m : map_type) (kv : var × var) :
    (map_type.insert (map_type.insert m kv).2 kv).2 = (map_type.insert m kv).2 := by
  have hins : (map_type.insert m kv).2 = m ∨
      (map_type.insert m kv).2 =
        m.take (lower_bound m kv.1) ++ kv :: m.drop (lower_bound m kv.1) := by
    cases he : m[lower_bound m kv.1]? with
    | none => right; simp [map_type.insert, he]
    | some e =>
      by_cases hlt : var.less_var kv.1 e.1 = true
      · right; simp [map_type.insert, he, hlt]
      · left; simp [map_type.insert, he, hlt]
  rcases hins with h0 | h1
  · rw [h0]; exact h0
  · rw [h1]
    have hl := lower_bound_take m kv.1
    generalize m.take (lower_bound m kv.1) = l1 at hl
    generalize m.drop (lower_bound m kv.1) = l2
    have hlb : lower_bound (l1 ++ kv :: l2) kv.1 = l1.length := by
      rw [lower_bound_append l1 _ kv.1 hl]
      simp [lower_bound, less_var_irrefl]
    simp only [map_type.insert, hlb, getElem?_append_cons_length, less_var_irrefl]
    simp

/-- Adding a key and a value to a mapping that has no equivalent key. -/
theorem append_key_value_visitor_absent (self key value : var) (h : heap) (ptr : Nat)
    (hk : absent key (h.maps ptr)) :
    var.append_key_value_visitor self key value h (.map ptr) =
      (.ok self,
        { h with maps := (Function.update h.maps ptr
            ((h.maps ptr).take (lower_bound (h.maps ptr) key) ++
              (key, value) :: (h.maps ptr).drop (lower_bound (h.maps ptr) key))) }) := by
  simp only [var.append_key_value_visitor, insert_absent (h.maps ptr) (key, value) hk]

/-- Adding a key and a value to a mapping that has an equivalent key. -/
theorem append_key_value_visitor_present (self key value : var) (h : heap) (ptr : Nat)
    (hm : ascending (h.maps ptr)) (hk : ¬ absent key (h.maps ptr)) :
    var.append_key_value_visitor self key value h (.map ptr) = (.ok self, h) := by
  simp only [var.append_key_value_visitor, insert_present (h.maps ptr) (key, value) hm hk]
  rw [heap_update_maps_self]

/-- C8: append(key, value) succeeds exactly when the receiver is a mapping.  On a
mapping without a key equivalent to `key` it puts the entry (key, value) into
the mapping, every former entry staying in place and every other container
untouched; afterwards key indexing with `key` returns a reference that reads
`value`, and count() has grown from the former size to that size plus one.  On a
mapping (its keys ascending) that has an equivalent key, the call succeeds and
the heap is exactly what it was. -/
theorem append_kv_mapping (self key value : var) (h : heap) :
    ((∃ r, (var.append_kv self key value h).1 = .ok r) ↔ self.type = code.type_map) ∧
    ∀ ptr : Nat, self = .map ptr →
      (absent key (h.maps ptr) →
        ∃ (it : Nat) (h1 : heap),
          var.append_kv self key value h = (.ok self, h1) ∧
          h1.maps ptr = (h.maps ptr).take it ++ (key, value) :: (h.maps ptr).drop it ∧
          (∀ q, q ≠ ptr → h1.maps q = h.maps q) ∧ h1.vectors = h.vectors ∧
          var.index_key self key h1 = (.ok (.mapped ptr it), h1) ∧
          h1.read (.mapped ptr it) = some value ∧
          (var.count self h).1 = .ok (h.maps ptr).length ∧
          (var.count self h1).1 = .ok ((h.maps ptr).length + 1)) ∧
      (ascending (h.maps ptr) → ¬ absent key (h.maps ptr) →
        var.append_kv self key value h = (.ok self, h)) := by
  constructor
  · cases self <;> simp [var.append_kv, var.append_key_value_visitor, var.type]
  · rintro ptr rfl
    constructor
    · intro hk
      have hlen := length_take_lower_bound (h.maps ptr) key
      have hsplit := List.take_append_drop (lower_bound (h.maps ptr) key) (h.maps ptr)
      have hvis := append_key_value_visitor_absent (.map ptr) key value h ptr hk
      generalize hit : lower_bound (h.maps ptr) key = it at hlen hsplit hvis
      generalize hl1 : (h.maps ptr).take it = l1 at hlen hsplit hvis
      generalize hl2 : (h.maps ptr).drop it = l2 at hsplit hvis
      have hl : ∀ e ∈ l1, var.less_var e.1 key = true := by
        intro e he
        apply lower_bound_take (h.maps ptr) key e
        rw [hit, hl1]; exact he
      have hcount : (h.maps ptr).length + 1 = (l1 ++ (key, value) :: l2).length := by
        rw [← hsplit]; simp; omega
      subst hlen
      refine ⟨l1.length,
        { h with maps := (Function.update h.maps ptr (l1 ++ (key, value) :: l2)) },
        hvis, ?_, ?_, rfl, ?_, ?_, rfl, ?_⟩
      · simp only [Function.update_same, hl1, hl2]
      · intro q hq
        simp [Function.update_noteq hq]
      · rw [var.index_key]
        exact index_var_visitor_at _ ptr key value l1 l2
          (by simp only [Function.update_same]) hl
      · simp only [heap.read, Function.update_same, getElem?_append_cons_length,
          Option.map_some']
      · simp only [var.count, var.count_visitor, Function.update_same]
        rw [hcount]
    · intro hm hk
      exact append_key_value_visitor_present (.map ptr) key value h ptr hm hk

/-- C8, witness: adding "a" -> 1 to the empty mapping. -/
theorem append_kv_mapping_witness :
    absent (.string "a") (heap.empty.maps 0) ∧
    ∃ (it : Nat) (h1 : heap),
      var.append_kv (.map 0) (.string "a") (.int 1) heap.empty = (.ok (.map 0), h1) ∧
      var.index_key (.map 0) (.string "a") h1 = (.ok (.mapped 0 it), h1) ∧
      h1.read (.mapped 0 it) = some (.int 1) :=
  ⟨by decide,
    let ⟨it, h1, a, _, _, _, b, c, _⟩ :=
      ((append_kv_mapping (.map 0) (.string "a") (.int 1) heap.empty).2 0 rfl).1 (by decide)
    ⟨it, h1, a, b, c⟩⟩

theorem getElem?_take_lower_bound (m l2 : map_type) (k : var) (kv : var × var) :
    (m.take (lower_bound m k) ++ kv :: l2)[lower_bound m k]? = some kv := by
  have := getElem?_append_cons_length (m.take (lower_bound m k)) l2 kv
  rwa [length_take_lower_bound] at this

theorem length_insert_at (m : map_type) (it : Nat) (kv : var × var) :
    (m.take it ++ kv :: m.drop it).length = m.length + 1 := by
  have := List.take_append_drop it m
  conv_rhs => rw [← this]
  simp only [List.length_append, List.length_cons]
  omega

/-- C9: on a mapping append(value) is append(value, null): the two calls have the
same outcome and leave the same heap.  If no key is equivalent to `value` the
entry (value, null) is put into the mapping; if the mapping (its keys ascending)
has an equivalent key, whatever its value, the heap is unchanged; and a second
append of the same value has the outcome of the first and changes nothing
more. -/
theorem append_on_mapping (h : heap) (ptr : Nat) (value : var) :
    var.append (.map ptr) value h = var.append_kv (.map ptr) value var.null h ∧
    (absent value (h.maps ptr) →
      ∃ it : Nat,
        (var.append (.map ptr) value h).1 = .ok (.map ptr) ∧
        (var.append (.map ptr) value h).2.maps ptr =
          (h.maps ptr).take it ++ (value, var.null) :: (h.maps ptr).drop it) ∧
    (ascending (h.maps ptr) → ¬ absent value (h.maps ptr) →
      var.append (.map ptr) value h = (.ok (.map ptr), h)) ∧
    var.append (.map ptr) value (var.append (.map ptr) value h).2 =
      var.append (.map ptr) value h := by
  have heq : var.append (.map ptr) value h = var.append_kv (.map ptr) value var.null h := rfl
  refine ⟨heq, ?_, ?_, ?_⟩
  · intro hk
    refine ⟨lower_bound (h.maps ptr) value, ?_, ?_⟩
    · rfl
    · rw [heq, var.append_kv,
        append_key_value_visitor_absent (.map ptr) value var.null h ptr hk]
      simp only [Function.update_same]
  · intro hm hk
    rw [heq]
    exact append_key_value_visitor_present (.map ptr) value var.null h ptr hm hk
  · simp only [var.append, var.append_value_visitor, Function.update_same,
      insert_idempotent, Function.update_idem]

/-- C9, witness: appending the key 4 to the mapping with the one entry 4 -> "x". -/
theorem append_on_mapping_witness :
    ascending ((heap.mk (fun _ => []) (fun _ => [(var.int 4, var.string "x")])).maps 0) ∧
    ¬ absent (.int 4) ((heap.mk (fun _ => []) (fun _ => [(var.int 4, var.string "x")])).maps 0) ∧
    var.append (.map 0) (.int 4) (heap.mk (fun _ => []) (fun _ => [(var.int 4, var.string "x")])) =
      (.ok (.map 0), heap.mk (fun _ => []) (fun _ => [(var.int 4, var.string "x")])) :=
  ⟨by decide, by decide,
    (append_on_mapping (heap.mk (fun _ => []) (fun _ => [(var.int 4, var.string "x")])) 0
      (.int 4)).2.2.1 (by decide) (by decide)⟩

/-- C10: the read-only key indexing has, on every var, key and heap, the outcome
and the final heap of the mutable key indexing, so that the two throw on the
same inputs; on a mapping without a key equivalent to k the read-only form puts
the entry (k, null) into the mapping, returns a reference that reads null, and
count() grows from the former size to that size plus one. -/
theorem index_key_const_same (x k : var) (h : heap) :
    var.index_key_const x k h = var.index_key x k h ∧
    ((∃ e, (var.index_key_const x k h).1 = .error e) ↔
      (∃ e, (var.index_key x k h).1 = .error e)) ∧
    ∀ ptr : Nat, x = .map ptr → absent k (h.maps ptr) →
      ∃ (it : Nat) (h1 : heap),
        var.index_key_const x k h = (.ok (.mapped ptr it), h1) ∧
        h1.maps ptr = (h.maps ptr).take it ++ (k, var.null) :: (h.maps ptr).drop it ∧
        h1.read (.mapped ptr it) = some var.null ∧
        (var.count x h).1 = .ok (h.maps ptr).length ∧
        (var.count x h1).1 = .ok ((h.maps ptr).length + 1) := by
  refine ⟨rfl, Iff.rfl, ?_⟩
  rintro ptr rfl hk
  refine ⟨lower_bound (h.maps ptr) k, _, index_var_visitor_absent h ptr k hk, ?_, ?_, rfl, ?_⟩
  · simp only [Function.update_same]
  · simp only [heap.read, Function.update_same, getElem?_take_lower_bound, Option.map_some']
  · simp only [var.count, var.count_visitor, Function.update_same, length_insert_at]

/-- C10, witness: read-only key indexing of the empty mapping with "a". -/
theorem index_key_const_same_witness :
    absent (.string "a") (heap.empty.maps 0) ∧
    ∃ (it : Nat) (h1 : heap),
      var.index_key_const (.map 0) (.string "a") heap.empty = (.ok (.mapped 0 it), h1) ∧
      (var.count (.map 0) h1).1 = .ok 1 :=
  ⟨by decide,
    let ⟨it, h1, a, _, _, _, b⟩ :=
      (index_key_const_same (.map 0) (.string "a") heap.empty).2.2 0 rfl (by decide)
    ⟨it, h1, a, b⟩⟩

/-! ## The invariant of mappings -/

/-- Assignment to the value of an entry keeps the keys in place. -/
theorem ascending_set (m : map_type) (it : Nat) (e : var × var) (v : var)
    (he : m[it]? = some e) (hm : ascending m) : ascending (m.set it (e.1, v)) := by
  induction m generalizing it with
  | nil => simp at he
  | cons x xs ih =>
    simp only [ascending, List.pairwise_cons] at hm
    cases it with
    | zero =>
      simp only [List.getElem?_cons_zero, Option.some.injEq] at he
      subst he
      simp only [List.set_cons_zero, ascending, List.pairwise_cons]
      exact hm
    | succ it =>
      simp only [List.getElem?_cons_succ] at he
      simp only [List.set_cons_succ, ascending, List.pairwise_cons]
      refine ⟨?_, ih it he hm.2⟩
      intro b hb
      rcases List.mem_or_eq_of_mem_set hb with hb | rfl
      · exact hm.1 b hb
      · exact hm.1 e (List.getElem?_mem he)

theorem wf_update (h : heap) (ptr : Nat) (m : map_type) (hw : h.wf) (hm : ascending m) :
    heap.wf { h with maps := (Function.update h.maps ptr m) } := by
  intro q
  by_cases hq : q = ptr
  · subst hq; simpa using hm
  · simpa [Function.update_noteq hq] using hw q

theorem wf_exec (c : call) (h : heap) (hw : h.wf) : (c.exec h).wf := by
  cases c with
  | append self value =>
    cases self <;> simp only [call.exec, var.append, var.append_value_visitor] <;>
      first
        | exact hw
        | exact wf_update h _ _ hw (ascending_insert _ _ (hw _))
  | append_kv self key value =>
    cases self <;> simp only [call.exec, var.append_kv, var.append_key_value_visitor] <;>
      first
        | exact hw
        | exact wf_update h _ _ hw (ascending_insert _ _ (hw _))
  | count self =>
    cases self <;> exact hw
  | index self n =>
    cases self <;> simp only [call.exec, var.index, var.index_int_visitor] <;>
      first
        | exact hw
        | (split <;> exact hw)
  | index_key self key =>
    cases self <;> simp only [call.exec, var.index_key, var.index_var_visitor] <;>
      first
        | exact hw
        | (split
           · exact wf_update h _ _ hw (ascending_insert _ _ (hw _))
           · exact hw)
  | index_key_const self key =>
    cases self <;> simp only [call.exec, var.index_key_const, var.index_var_visitor] <;>
      first
        | exact hw
        | (split
           · exact wf_update h _ _ hw (ascending_insert _ _ (hw _))
           · exact hw)
  | assign r value =>
    cases r with
    | element ptr n => exact hw
    | mapped ptr it =>
      simp only [call.exec, heap.assign]
      split
      · exact hw
      · rename_i e he
        exact wf_update h _ _ hw (ascending_set _ _ e value he (hw _))

theorem wf_run (cs : List call) (h : heap) (hw : h.wf) : (run cs h).wf := by
  induction cs generalizing h with
  | nil => exact hw
  | cons c cs ih => exact ih (c.exec h) (wf_exec c h hw)

/-- C3: after any sequence of append(value), append(key, value), count, integer
index, key index (mutable or read-only) calls on any receivers and of
assignments through references, started with all containers empty, every
mapping has its keys in strictly ascending comparator order, and no two of its
keys are equivalent. -/
theorem reachable_mapping_ascending (cs : List call) (ptr : Nat) :
    ascending ((run cs heap.empty).maps ptr) ∧
    ((run cs heap.empty).maps ptr).Pairwise (fun a b => var.equiv a.1 b.1 = false) := by
  have hw : (run cs heap.empty).wf := wf_run cs heap.empty (fun _ => List.Pairwise.nil)
  refine ⟨hw ptr, ?_⟩
  refine List.Pairwise.imp ?_ (hw ptr)
  intro a b hab
  simp [var.equiv, hab]

/-! ## Failure leaves the heap alone -/

/-- C11: whenever append(value), append(key, value), count(), the integer index
or the key index (mutable or read-only) throws, the heap after the call is the
heap before it: the receiver and every container are what they were. -/
theorem failure_is_atomic (x key value : var) (n : Int) (h : heap) (e : exception) :
    ((var.append x value h).1 = .error e → (var.append x value h).2 = h) ∧
    ((var.append_kv x key value h).1 = .error e → (var.append_kv x key value h).2 = h) ∧
    ((var.count x h).1 = .error e → (var.count x h).2 = h) ∧
    ((var.index x n h).1 = .error e → (var.index x n h).2 = h) ∧
    ((var.index_key x key h).1 = .error e → (var.index_key x key h).2 = h) ∧
    ((var.index_key_const x key h).1 = .error e → (var.index_key_const x key h).2 = h) := by
  refine ⟨?_, ?_, ?_, ?_, ?_, ?_⟩
  · cases x <;> simp [var.append, var.append_value_visitor]
  · cases x <;> simp [var.append_kv, var.append_key_value_visitor]
  · cases x <;> simp [var.count, var.count_visitor]
  · cases x <;> simp only [var.index, var.index_int_visitor] <;>
      first
        | (intro _; trivial)
        | (split <;> intro _ <;> rfl)
  · cases x <;> simp only [var.index_key, var.index_var_visitor] <;>
      first
        | (intro _; trivial)
        | (split <;> intro _ <;> first | rfl | trivial)
  · cases x <;> simp only [var.index_key_const, var.index_var_visitor] <;>
      first
        | (intro _; trivial)
        | (split <;> intro _ <;> first | rfl | trivial)

/-- C11, witness: the integer index 3 of an empty sequence. -/
theorem failure_is_atomic_witness :
    (var.index (.vector 0) 3 heap.empty).1 = .error ⟨"[int] out of range in vector"⟩ ∧
    (var.index (.vector 0) 3 heap.empty).2 = heap.empty :=
  ⟨by decide,
    (failure_is_atomic (.vector 0) .null .null 3 heap.empty
      ⟨"[int] out of range in vector"⟩).2.2.2.1 (by decide)⟩

/-! ## Copies -/

theorem read_assign_same (h : heap) (r : ref) (v : var) (hr : (h.read r).isSome = true) :
    (h.assign r v).read r = some v := by
  cases r with
  | element ptr n =>
    simp only [heap.read, Option.isSome_iff_exists] at hr
    obtain ⟨a, ha⟩ := hr
    have hlt : n < (h.vectors ptr).length := (List.getElem?_eq_some.mp ha).1
    simp [heap.read, heap.assign, List.getElem?_set, hlt]
  | mapped ptr it =>
    simp only [heap.read, Option.isSome_iff_exists] at hr
    obtain ⟨a, ha⟩ := hr
    cases he : (h.maps ptr)[it]? with
    | none => simp [he] at ha
    | some e =>
      have hlt : it < (h.maps ptr).length := (List.getElem?_eq_some.mp he).1
      simp [heap.read, heap.assign, he, List.getElem?_set, hlt]

theorem read_assign_ne (h : heap) (r1 r2 : ref) (v : var) (hne : r1 ≠ r2) :
    (h.assign r1 v).read r2 = h.read r2 := by
  cases r1 with
  | element p1 n1 =>
    cases r2 with
    | element p2 n2 =>
      by_cases hp : p2 = p1
      · subst hp
        have hn : n1 ≠ n2 := fun hn => hne (by rw [hn])
        simp [heap.read, heap.assign, List.getElem?_set_ne hn]
      · simp [heap.read, heap.assign, Function.update_noteq hp]
    | mapped p2 i2 => simp [heap.read, heap.assign]
  | mapped p1 i1 =>
    cases r2 with
    | element p2 n2 =>
      simp only [heap.read, heap.assign]
      split <;> rfl
    | mapped p2 i2 =>
      simp only [heap.read, heap.assign]
      split
      · rfl
      · by_cases hp : p2 = p1
        · subst hp
          have hn : i1 ≠ i2 := fun hn => hne (by rw [hn])
          simp [List.getElem?_set_ne hn]
        · simp [Function.update_noteq hp]

/-- C18: a copy of a var that holds a sequence shares the container.  An
append(v) through the copy or through the original succeeds and puts v at the
end of the one container, so that count() through either of them goes from the
former size to that size plus one, and the integer index through the copy is
the integer index through the original.  A copy of a var that holds an int is a
value of its own: when the copy has been stored in another slot, an assignment
to either slot leaves the int in the other slot as it was. -/
theorem copy_shares_containers (h : heap) (ptr : Nat) (v w : var) (n : Int) (r1 r2 : ref) :
    ((var.append (var.copy (.vector ptr)) v h).1 = .ok (var.copy (.vector ptr)) ∧
      (var.count (.vector ptr) h).1 = .ok (h.vectors ptr).length ∧
      (var.count (.vector ptr) (var.append (var.copy (.vector ptr)) v h).2).1 =
        .ok ((h.vectors ptr).length + 1) ∧
      (var.count (var.copy (.vector ptr)) (var.append (var.copy (.vector ptr)) v h).2).1 =
        .ok ((h.vectors ptr).length + 1) ∧
      (var.count (var.copy (.vector ptr)) (var.append (.vector ptr) v h).2).1 =
        .ok ((h.vectors ptr).length + 1) ∧
      (var.append (.vector ptr) v h).2.vectors ptr = h.vectors ptr ++ [v] ∧
      (var.append (var.copy (.vector ptr)) v h).2.vectors ptr = h.vectors ptr ++ [v] ∧
      ∀ (i : Int) (h1 : heap),
        var.index (var.copy (.vector ptr)) i h1 = var.index (.vector ptr) i h1) ∧
    (r1 ≠ r2 → h.read r1 = some (.int n) → (h.read r2).isSome = true →
      (h.assign r2 (var.copy (.int n))).read r2 = some (.int n) ∧
      (h.assign r2 (var.copy (.int n))).read r1 = some (.int n) ∧
      ((h.assign r2 (var.copy (.int n))).assign r1 w).read r1 = some w ∧
      ((h.assign r2 (var.copy (.int n))).assign r1 w).read r2 = some (.int n) ∧
      ((h.assign r2 (var.copy (.int n))).assign r2 w).read r2 = some w ∧
      ((h.assign r2 (var.copy (.int n))).assign r2 w).read r1 = some (.int n)) := by
  refine ⟨⟨rfl, rfl, ?_, ?_, ?_, ?_, ?_, fun _ _ => rfl⟩, ?_⟩
  · simp [var.count, var.count_visitor, var.append, var.append_value_visitor, var.copy]
  · simp [var.count, var.count_visitor, var.append, var.append_value_visitor, var.copy]
  · simp [var.count, var.count_visitor, var.append, var.append_value_visitor, var.copy]
  · simp [var.append, var.append_value_visitor]
  · simp [var.append, var.append_value_visitor, var.copy]
  · intro hne h1 h2
    have hr2 : (h.assign r2 (var.copy (.int n))).read r2 = some (.int n) :=
      read_assign_same h r2 _ h2
    have hr1 : (h.assign r2 (var.copy (.int n))).read r1 = some (.int n) := by
      rw [read_assign_ne h r2 r1 _ (Ne.symm hne)]; exact h1
    refine ⟨hr2, hr1, ?_, ?_, ?_, ?_⟩
    · exact read_assign_same _ r1 w (by rw [hr1]; rfl)
    · rw [read_assign_ne _ r1 r2 w hne]; exact hr2
    · exact read_assign_same _ r2 w (by rw [hr2]; rfl)
    · rw [read_assign_ne _ r2 r1 w (Ne.symm hne)]; exact hr1

/-- C18, witness: the int 7 copied from slot 0 to slot 1 of a sequence, then
slot 0 assigned 8. -/
theorem copy_shares_containers_witness :
    ref.element 0 0 ≠ ref.element 0 1 ∧
    (heap.mk (fun _ => [var.int 7, var.null]) (fun _ => [])).read (.element 0 0) =
      some (.int 7) ∧
    (((heap.mk (fun _ => [var.int 7, var.null]) (fun _ => [])).assign (.element 0 1)
      (var.copy (.int 7))).assign (.element 0 0) (.int 8)).read (.element 0 1) =
        some (.int 7) :=
  ⟨by decide, by decide,
    ((copy_shares_containers (heap.mk (fun _ => [var.int 7, var.null]) (fun _ => [])) 0
      .null (.int 8) 7 (.element 0 0) (.element 0 1)).2 (by decide) (by decide)
      (by decide)).2.2.2.1⟩

/-! ## Container keys -/

/-- In an ascending map two entries with equivalent keys are one entry. -/
theorem ascending_unique (m : map_type) (hm : ascending m) (e1 e2 : var × var)
    (h1 : e1 ∈ m) (h2 : e2 ∈ m) (he : var.equiv e1.1 e2.1 = true) : e1 = e2 := by
  induction m with
  | nil => simp at h1
  | cons x xs ih =>
    simp only [ascending, List.pairwise_cons] at hm
    rcases List.mem_cons.mp h1 with g1 | g1 <;> rcases List.mem_cons.mp h2 with g2 | g2
    · rw [g1, g2]
    · have := hm.1 e2 g2
      rw [← g1] at this
      simp [var.equiv, this] at he
    · have := hm.1 e1 g1
      rw [← g2] at this
      simp [var.equiv, this] at he
    · exact ih hm.2 g1 g2

/-- Key indexing an ascending mapping that has a key equivalent to `k`, not a
NaN, is a pure lookup of the entry with that key. -/
theorem index_var_visitor_present (h : heap) (ptr : Nat) (k : var) (e : var × var)
    (hm : ascending (h.maps ptr)) (he : e ∈ h.maps ptr) (hk : var.equiv e.1 k = true)
    (hb : k.isnan = false) :
    ∃ it : Nat, var.index_var_visitor k h (.map ptr) = (.ok (.mapped ptr it), h) ∧
      (h.maps ptr)[it]? = some e ∧ h.read (.mapped ptr it) = some e.2 := by
  have hpres : ¬ absent k (h.maps ptr) := by
    intro ha
    have := ha e he
    rw [hk] at this
    cases this
  obtain ⟨e0, h1, h2, h3⟩ := present_get (h.maps ptr) k hm hpres
  have he0 : e0 = e := by
    apply ascending_unique (h.maps ptr) hm e0 e (List.getElem?_mem h1) he
    apply var_equiv_trans e0.1 k e.1 hb
    · simp [var.equiv, h2, h3]
    · simpa [var.equiv, Bool.and_comm] using hk
  subst he0
  refine ⟨lower_bound (h.maps ptr) k, ?_, h1, ?_⟩
  · simp [var.index_var_visitor, h1, h3]
  · simp only [heap.read, h1, Option.map_some']

theorem equiv_of_container_kind (k1 k2 : var)
    (hc : k1.type = code.type_vector ∨ k1.type = code.type_map) (ht : k2.type = k1.type) :
    var.equiv k1 k2 = true ∧ k2.isnan = false := by
  cases k1 <;> cases k2 <;> simp [var.type] at hc ht <;>
    simp [var.equiv, var.less_var, var.type, var.isnan]

/-- C19: in a mapping (its keys ascending) that has a key k1 of kind sequence, or
of kind mapping, with value val, every var k2 of that kind, whatever it points
to, is taken for k1: append(k2) and append(k2, v) leave the heap as it was, so
that count() and the stored key stay; key indexing with k2 returns a reference
to the entry (k1, val), which reads val, and changes nothing; and (k1, val) is
the only entry of the mapping with a key of that kind. -/
theorem container_keys_are_one_key (h : heap) (ptr : Nat) (k1 k2 val v : var)
    (hm : ascending (h.maps ptr))
    (hc : k1.type = code.type_vector ∨ k1.type = code.type_map)
    (ht : k2.type = k1.type) (hin : (k1, val) ∈ h.maps ptr) :
    var.append (.map ptr) k2 h = (.ok (.map ptr), h) ∧
    var.append_kv (.map ptr) k2 v h = (.ok (.map ptr), h) ∧
    (∃ it : Nat, var.index_key (.map ptr) k2 h = (.ok (.mapped ptr it), h) ∧
      (h.maps ptr)[it]? = some (k1, val) ∧ h.read (.mapped ptr it) = some val) ∧
    (∀ e ∈ h.maps ptr, e.1.type = k1.type → e = (k1, val)) := by
  obtain ⟨heq, hnan⟩ := equiv_of_container_kind k1 k2 hc ht
  have hpres : ¬ absent k2 (h.maps ptr) := by
    intro ha
    have := ha (k1, val) hin
    rw [heq] at this
    cases this
  refine ⟨?_, ?_, ?_, ?_⟩
  · exact append_key_value_visitor_present (.map ptr) k2 var.null h ptr hm hpres
  · exact append_key_value_visitor_present (.map ptr) k2 v h ptr hm hpres
  · exact index_var_visitor_present h ptr k2 (k1, val) hm hin heq hnan
  · intro e he hte
    exact ascending_unique (h.maps ptr) hm e (k1, val) he hin
      (by
        have := (equiv_of_container_kind k1 e.1 hc hte).1
        simpa [var.equiv, Bool.and_comm] using this)

/-- C19, witness: the mapping with the sequence key at address 1, and the
sequence at address 2 offered as a key. -/
theorem container_keys_are_one_key_witness :
    ascending ((heap.mk (fun _ => []) (fun _ => [(var.vector 1, var.int 5)])).maps 0) ∧
    ((var.vector 1).type = code.type_vector ∨ (var.vector 1).type = code.type_map) ∧
    (var.vector 2).type = (var.vector 1).type ∧
    (var.vector 1, var.int 5) ∈
      (heap.mk (fun _ => []) (fun _ => [(var.vector 1, var.int 5)])).maps 0 ∧
    var.append_kv (.map 0) (.vector 2) (.int 6)
        (heap.mk (fun _ => []) (fun _ => [(var.vector 1, var.int 5)])) =
      (.ok (.map 0), heap.mk (fun _ => []) (fun _ => [(var.vector 1, var.int 5)])) :=
  ⟨by decide, by decide, by decide, by decide,
    (container_keys_are_one_key (heap.mk (fun _ => []) (fun _ => [(var.vector 1, var.int 5)]))
      0 (.vector 1) (.vector 2) (.int 5) (.int 6) (by decide) (by decide) (by decide)
      (by decide)).2.1⟩

/-! ## Strings -/

theorem c_str_eq (s : String) (hs : ∀ c ∈ s.data, c ≠ Char.ofNat 0) : c_str s = s.data := by
  unfold c_str
  apply List.takeWhile_eq_self_iff.mpr
  intro c hc
  simpa using hs c hc

theorem put_escaped_image (os : ostream) (c : Char)
    (hc : iscntrl c = false ∨ escaped_control c = true) :
    put_escaped os c = { os with out := os.out ++ escape_image c } := by
  unfold put_escaped escape_image
  split_ifs <;> simp_all [ostream.write, ostream.put, escaped_control]

theorem foldl_put_escaped (l : List Char) (os : ostream)
    (hl : ∀ c ∈ l, iscntrl c = false ∨ escaped_control c = true) :
    l.foldl put_escaped os = { os with out := os.out ++ (l.map escape_image).flatten } := by
  induction l generalizing os with
  | nil => simp
  | cons c cs ih =>
    rw [List.foldl_cons, put_escaped_image os c (hl c (List.mem_cons_self _ _)),
      ih _ (fun d hd => hl d (List.mem_cons_of_mem _ hd))]
    simp

/-- C14: for a narrow string made of non-control characters and of backspace,
carriage return, newline, form feed and tab, the byte-oriented string writer
writes a double quote, the images of the characters in order, and a double
quote, and leaves the formatting state of the stream alone.  The image of the
backslash, the double quote, the newline, backspace, carriage return, form
feed, tab and the slash is the backslash followed by the escape letter, and the
image of every other character is the character. -/
theorem write_string_escapes (s : String) (os : ostream)
    (hs : ∀ c ∈ s.data, iscntrl c = false ∨ escaped_control c = true) :
    var._write_string s os =
      { os with out := os.out ++ ('"' :: ((s.data.map escape_image).flatten ++ ['"'])) } ∧
    escape_image '\\' = ['\\', '\\'] ∧ escape_image '"' = ['\\', '"'] ∧
    escape_image '\n' = ['\\', 'n'] ∧ escape_image (Char.ofNat 8) = ['\\', 'b'] ∧
    escape_image '\r' = ['\\', 'r'] ∧ escape_image (Char.ofNat 12) = ['\\', 'f'] ∧
    escape_image '\t' = ['\\', 't'] ∧ escape_image '/' = ['\\', '/'] ∧
    (∀ c : Char, c ≠ '\\' → c ≠ '"' → c ≠ '\n' → c ≠ Char.ofNat 8 → c ≠ '\r' →
      c ≠ Char.ofNat 12 → c ≠ '\t' → c ≠ '/' → escape_image c = [c]) := by
  refine ⟨?_, by decide, by decide, by decide, by decide, by decide, by decide, by decide,
    by decide, ?_⟩
  · have hz : ∀ c ∈ s.data, c ≠ Char.ofNat 0 := by
      intro c hc h0
      subst h0
      have := hs _ hc
      revert this
      decide
    simp only [var._write_string, c_str_eq s hz, ostream.put]
    rw [foldl_put_escaped _ _ hs]
    simp
  · intro c h1 h2 h3 h4 h5 h6 h7 h8
    simp [escape_image, h1, h2, h3, h4, h5, h6, h7, h8]

/-- C14, witness: the string of `a`, a backslash, a double quote, a newline and a
slash. -/
theorem write_string_escapes_witness :
    (∀ c ∈ "a\\\"\n/".data, iscntrl c = false ∨ escaped_control c = true) ∧
    (var._write_string "a\\\"\n/" ostream.fresh).out = "\"a\\\\\\\"\\n\\/\"".data :=
  ⟨by decide, by
    rw [(write_string_escapes "a\\\"\n/" ostream.fresh (by decide)).1]
    decide⟩

theorem wput_escaped_image (pf : platform) (os : ostream) (c : Char)
    (hc : (32 ≤ c.toNat ∧ c.toNat < 128) ∨ escaped_control c = true) :
    wput_escaped pf os c = { os with out := os.out ++ wide_image c } := by
  have hcode : escaped_control c = false → ¬ narrow_code pf c < 32 := by
    intro he
    rcases hc with hc | hc
    · have h128 : ¬ 128 ≤ c.toNat := by omega
      simp only [narrow_code, h128, decide_False, Bool.and_false]
      simp only [Bool.false_eq_true, if_false]
      omega
    · rw [he] at hc; cases hc
  unfold wput_escaped wide_image
  split_ifs <;> simp_all [ostream.write, ostream.put, escaped_control]

theorem wput_escaped_wchar_image (os : ostream) (c : Char)
    (hc : 32 ≤ c.toNat ∨ escaped_control c = true) :
    wput_escaped_wchar os c = { os with out := os.out ++ wide_image c } := by
  have hlt : c < ' ' ↔ c.toNat < 32 := by
    rw [Char.lt_def]
    exact Iff.rfl
  unfold wput_escaped_wchar wide_image
  split_ifs <;> simp_all [ostream.write, ostream.put, escaped_control]
  all_goals omega

theorem foldl_wput_escaped (pf : platform) (l : List Char) (os : ostream)
    (hl : ∀ c ∈ l, (32 ≤ c.toNat ∧ c.toNat < 128) ∨ escaped_control c = true) :
    l.foldl (wput_escaped pf) os =
      { os with out := os.out ++ (l.map wide_image).flatten } := by
  induction l generalizing os with
  | nil => simp
  | cons c cs ih =>
    rw [List.foldl_cons, wput_escaped_image pf os c (hl c (List.mem_cons_self _ _)),
      ih _ (fun d hd => hl d (List.mem_cons_of_mem _ hd))]
    simp

theorem foldl_wput_escaped_wchar (l : List Char) (os : ostream)
    (hl : ∀ c ∈ l, 32 ≤ c.toNat ∨ escaped_control c = true) :
    l.foldl wput_escaped_wchar os =
      { os with out := os.out ++ (l.map wide_image).flatten } := by
  induction l generalizing os with
  | nil => simp
  | cons c cs ih =>
    rw [List.foldl_cons, wput_escaped_wchar_image os c (hl c (List.mem_cons_self _ _)),
      ih _ (fun d hd => hl d (List.mem_cons_of_mem _ hd))]
    simp

/-- Where the wide-character string writers do escape as the spec words it: on a
narrow string of 7-bit characters with a code from 32 on, and on a wide string
of characters with a code from 32 on, in both cases plus backspace, carriage
return, newline, form feed and tab, they write a single quote, the images of
the characters in order, and a single quote.  Backspace, carriage return,
newline, form feed, tab, the backslash and the single quote are the seven
characters whose image is an escape; every other character, the slash and the
double quote among them, is its own image. -/
theorem wide_write_string_escapes (pf : platform) (s t : String) (os : ostream)
    (hs : ∀ c ∈ s.data, (32 ≤ c.toNat ∧ c.toNat < 128) ∨ escaped_control c = true)
    (ht : ∀ c ∈ t.data, 32 ≤ c.toNat ∨ escaped_control c = true) :
    var._write_string_w pf s os =
      { os with out := os.out ++ ('\'' :: ((s.data.map wide_image).flatten ++ ['\''])) } ∧
    var._write_wstring_w t os =
      { os with out := os.out ++ ('\'' :: ((t.data.map wide_image).flatten ++ ['\''])) } ∧
    wide_image (Char.ofNat 8) = ['\\', 'b'] ∧ wide_image '\r' = ['\\', 'r'] ∧
    wide_image '\n' = ['\\', 'n'] ∧ wide_image (Char.ofNat 12) = ['\\', 'f'] ∧
    wide_image '\t' = ['\\', 't'] ∧ wide_image '\\' = ['\\', '\\'] ∧
    wide_image '\'' = ['\\', '\''] ∧ wide_image '/' = ['/'] ∧ wide_image '"' = ['"'] ∧
    (∀ c : Char, wide_image c = [c] ↔
      (c ≠ Char.ofNat 8 ∧ c ≠ '\r' ∧ c ≠ '\n' ∧ c ≠ Char.ofNat 12 ∧ c ≠ '\t' ∧ c ≠ '\\' ∧
        c ≠ '\'')) := by
  have hzs : ∀ c ∈ s.data, c ≠ Char.ofNat 0 := by
    intro c hc h0
    subst h0
    have := hs _ hc
    revert this
    decide
  have hzt : ∀ c ∈ t.data, c ≠ Char.ofNat 0 := by
    intro c hc h0
    subst h0
    have := ht _ hc
    revert this
    decide
  refine ⟨?_, ?_, by decide, by decide, by decide, by decide, by decide, by decide,
    by decide, by decide, by decide, ?_⟩
  · simp only [var._write_string_w, c_str_eq s hzs, ostream.put]
    rw [foldl_wput_escaped _ _ _ hs]
    simp
  · simp only [var._write_wstring_w, c_str_eq t hzt, ostream.put]
    rw [foldl_wput_escaped_wchar _ _ ht]
    simp
  · intro c
    unfold wide_image
    split_ifs <;> simp_all

/-- C17, the code at the failing input: where `char` is signed, the narrow string
of the one character with code 233 is not written unchanged by
`_write_string(std::wostream&)`.  The character is negative as a `char`, so it
is below the blank and takes the branch of the control characters: a `0` and the
int -23 in octal are written, `037777777751` between the single quotes, and the
stream is left in octal.  Where `char` is unsigned the character is written
unchanged, and the same character in a wide string is written unchanged by
`_write_wstring(std::wostream&)`. -/
theorem wide_write_string_high_byte :
    (var._write_string_w ⟨fun _ => [], fun _ => [], true⟩ (String.mk [Char.ofNat 233])
      ostream.fresh).out = "'037777777751'".data ∧
    (var._write_string_w ⟨fun _ => [], fun _ => [], true⟩ (String.mk [Char.ofNat 233])
      ostream.fresh).base = basefield.oct ∧
    (var._write_string_w ⟨fun _ => [], fun _ => [], true⟩ (String.mk [Char.ofNat 233])
      ostream.fresh).out ≠ ['\'', Char.ofNat 233, '\''] ∧
    (var._write_string_w ⟨fun _ => [], fun _ => [], false⟩ (String.mk [Char.ofNat 233])
      ostream.fresh).out = ['\'', Char.ofNat 233, '\''] ∧
    (var._write_wstring_w (String.mk [Char.ofNat 233]) ostream.fresh).out =
      ['\'', Char.ofNat 233, '\''] := by
  decide

/-- C15, the code at the failing input: the narrow string of the one character
with code 1 is rendered as the four characters `0001` between the quotes, with
no backslash in front; the characters after a control character are rendered. -/
theorem write_string_control_character :
    (var._write_string "\x01" ostream.fresh).out = ['"', '0', '0', '0', '1', '"'] ∧
    (var._write_string "a\x01b" ostream.fresh).out = ['"', 'a', '0', '0', '0', '1', 'b', '"'] ∧
    (var._write_string "\x01" ostream.fresh).out ≠ ['"', '\\', '0', '0', '0', '1', '"'] := by
  decide

/-- C16, the code at the failing input: in the sequence of the string with the
character of code 1 and the int 8, the int is written as `10`, the stream
having been left in octal by the string; on its own the int 8 is written as
`8`. -/
theorem write_int_after_control_character (pf : platform) :
    (var._write_var pf 2 (.vector 0)
        (ostream.fresh, heap.mk (fun _ => [var.string "\x01", var.int 8]) (fun _ => []))).map
      (fun s => s.1.out) = some "[ \"0001\", 10 ]".data ∧
    (var._write_var pf 2 (.vector 0)
        (ostream.fresh, heap.mk (fun _ => [var.int 8]) (fun _ => []))).map
      (fun s => s.1.out) = some "[ 8 ]".data := by
  constructor <;> rfl

/-! ## Rendering leaves the heap alone -/

theorem write_elements_eq (rec : var → ostream × heap → Option (ostream × heap))
    (l : List var) (first : Bool) (s : ostream × heap) :
    write_elements rec l first s = write_items rec l first s := by
  induction l generalizing first s with
  | nil => rfl
  | cons v vs ih =>
    simp only [write_elements, write_items]
    cases rec v (if first = true then s else (s.1.write ", ", s.2)) with
    | none => rfl
    | some s1 => exact ih false s1

/-- On an ascending mapping the loop of `_write_collection`, which reads every
value through the key index, writes the entries themselves, provided that
writing a var leaves the heap as it is. -/
theorem write_entries_eq (rec : var → ostream × heap → Option (ostream × heap))
    (h : heap) (ptr : Nat)
    (hrec : ∀ x os r, rec x (os, h) = some r → r.2 = h)
    (hm : ascending (h.maps ptr)) (pre rest : map_type) (hsplit : h.maps ptr = pre ++ rest)
    (first : Bool) (os : ostream) :
    write_entries rec (.map ptr) (rest.map Prod.fst) first (os, h) =
      write_items (write_pair rec) rest first (os, h) := by
  induction rest generalizing pre first os with
  | nil => rfl
  | cons e es ih =>
    obtain ⟨k, v⟩ := e
    have hl := ascending_split pre es (k, v) (hsplit ▸ hm)
    have hidx := index_var_visitor_at h ptr k v pre es hsplit hl
    have hget : (h.maps ptr)[pre.length]? = some (k, v) := by
      rw [hsplit]; exact getElem?_append_cons_length pre es (k, v)
    have hstart : (if first = true then (os, h) else ((os, h).1.write ", ", (os, h).2)) =
        ((if first = true then os else os.write ", "), h) := by
      cases first <;> rfl
    simp only [List.map_cons, write_entries, write_items, write_pair, hstart]
    cases hk : rec k ((if first = true then os else os.write ", "), h) with
    | none => rfl
    | some s1 =>
      obtain ⟨os1, h1⟩ := s1
      have h1eq : h1 = h := hrec _ _ _ hk
      subst h1eq
      simp only [var.index_key_const, hidx, heap.read, hget, Option.map_some']
      cases hv : rec v (os1.write " : ", h1) with
      | none => rfl
      | some s2 =>
        obtain ⟨os2, h2⟩ := s2
        have h2eq : h2 = h1 := hrec _ _ _ hv
        subst h2eq
        simp only []
        have := ih (pre ++ [(k, v)]) (by rw [hsplit]; simp) false os2
        exact this

theorem write_items_keeps {α : Type} (item : α → ostream × heap → Option (ostream × heap))
    (h : heap) (hitem : ∀ a os r, item a (os, h) = some r → r.2 = h)
    (l : List α) (first : Bool) (os : ostream) (r : ostream × heap)
    (hr : write_items item l first (os, h) = some r) : r.2 = h := by
  induction l generalizing first os with
  | nil =>
    simp only [write_items, Option.some.injEq] at hr
    rw [← hr]
  | cons a as ih =>
    have hstart : (if first = true then (os, h) else ((os, h).1.write ", ", (os, h).2)) =
        ((if first = true then os else os.write ", "), h) := by
      cases first <;> rfl
    simp only [write_items, hstart] at hr
    cases ha : item a ((if first = true then os else os.write ", "), h) with
    | none => rw [ha] at hr; cases hr
    | some s1 =>
      obtain ⟨os1, h1⟩ := s1
      have h1eq : h1 = h := hitem _ _ _ ha
      subst h1eq
      rw [ha] at hr
      exact ih false os1 hr

theorem write_pair_keeps (rec : var → ostream × heap → Option (ostream × heap)) (h : heap)
    (hrec : ∀ x os r, rec x (os, h) = some r → r.2 = h)
    (e : var × var) (os : ostream) (r : ostream × heap)
    (hr : write_pair rec e (os, h) = some r) : r.2 = h := by
  simp only [write_pair] at hr
  cases hk : rec e.1 (os, h) with
  | none => rw [hk] at hr; cases hr
  | some s1 =>
    obtain ⟨os1, h1⟩ := s1
    have h1eq : h1 = h := hrec _ _ _ hk
    subst h1eq
    rw [hk] at hr
    exact hrec _ _ _ hr

/-- The collection writer leaves a heap of ascending mappings as it is when the
writer of the nested vars does. -/
theorem write_collection_keeps (rec : var → ostream × heap → Option (ostream × heap))
    (h : heap) (hw : h.wf) (hrec : ∀ x os r, rec x (os, h) = some r → r.2 = h)
    (x : var) (os : ostream) (r : ostream × heap)
    (hr : var._write_collection rec x (os, h) = some r) : r.2 = h := by
  cases x with
  | vector ptr =>
    simp only [var._write_collection, write_elements_eq, Option.map_eq_some'] at hr
    obtain ⟨s1, hs1, rfl⟩ := hr
    exact write_items_keeps rec h hrec _ _ _ s1 hs1
  | map ptr =>
    simp only [var._write_collection, Option.map_eq_some'] at hr
    obtain ⟨s1, hs1, rfl⟩ := hr
    rw [write_entries_eq rec h ptr hrec (hw ptr) [] (h.maps ptr) rfl] at hs1
    exact write_items_keeps _ h (write_pair_keeps rec h hrec) _ _ _ s1 hs1
  | _ => simp [var._write_collection] at hr

theorem write_var_keeps (pf : platform) (h : heap) (hw : h.wf) (n : Nat) :
    ∀ x os r, var._write_var pf n x (os, h) = some r → r.2 = h := by
  induction n with
  | zero => intro x os r hr; simp [var._write_var] at hr
  | succ n ih =>
    intro x os r hr
    cases x with
    | vector ptr =>
      simp only [var._write_var] at hr
      exact write_collection_keeps _ h hw ih _ os r hr
    | map ptr =>
      simp only [var._write_var] at hr
      exact write_collection_keeps _ h hw ih _ os r hr
    | _ =>
      simp only [var._write_var, Option.some.injEq] at hr
      rw [← hr]

/-! ## What is written does not depend on what was written before -/

theorem write_prepend (t : List Char) (os : ostream) (s : String) :
    (os.prepend t).write s = (os.write s).prepend t := by
  simp [ostream.prepend, ostream.write]

theorem put_prepend (t : List Char) (os : ostream) (c : Char) :
    (os.prepend t).put c = (os.put c).prepend t := by
  simp [ostream.prepend, ostream.put]

theorem write_int_prepend (t : List Char) (os : ostream) (w : Nat) (n : Int) :
    (os.prepend t).write_int w n = (os.write_int w n).prepend t := by
  simp [ostream.prepend, ostream.write_int]

theorem put_octal_prepend (t : List Char) (os : ostream) (code : Int) :
    put_octal (os.prepend t) code = (put_octal os code).prepend t := by
  simp [put_octal, ostream.prepend, ostream.write_int, ostream.write]

theorem put_escaped_prepend (t : List Char) (os : ostream) (c : Char) :
    put_escaped (os.prepend t) c = (put_escaped os c).prepend t := by
  unfold put_escaped
  split_ifs <;>
    (first
      | exact write_prepend _ _ _
      | exact put_octal_prepend _ _ _)

theorem put_escaped_wchar_prepend (pf : platform) (t : List Char) (os : ostream) (c : Char) :
    put_escaped_wchar pf (os.prepend t) c = (put_escaped_wchar pf os c).prepend t := by
  unfold put_escaped_wchar
  repeat' split
  all_goals simp only [ostream.prepend, ostream.write_int, List.append_assoc]

theorem foldl_prepend (f : ostream → Char → ostream) (t : List Char)
    (hf : ∀ os c, f (os.prepend t) c = (f os c).prepend t) (l : List Char) (os : ostream) :
    l.foldl f (os.prepend t) = (l.foldl f os).prepend t := by
  induction l generalizing os with
  | nil => rfl
  | cons c cs ih => rw [List.foldl_cons, hf, ih, List.foldl_cons]

theorem write_string_prepend (t : List Char) (s : String) (os : ostream) :
    var._write_string s (os.prepend t) = (var._write_string s os).prepend t := by
  simp only [var._write_string, put_prepend,
    foldl_prepend put_escaped t (put_escaped_prepend t)]

theorem write_wstring_prepend (pf : platform) (t : List Char) (s : String) (os : ostream) :
    var._write_wstring pf s (os.prepend t) = (var._write_wstring pf s os).prepend t := by
  simp only [var._write_wstring, put_prepend,
    foldl_prepend (put_escaped_wchar pf) t (put_escaped_wchar_prepend pf t)]

theorem write_items_frames {α : Type} (item : α → ostream × heap → Option (ostream × heap))
    (hitem : frames item) (t : List Char) (l : List α) (first : Bool) (os : ostream)
    (h : heap) :
    write_items item l first (os.prepend t, h) =
      (write_items item l first (os, h)).map (fun s => (s.1.prepend t, s.2)) := by
  induction l generalizing first os h with
  | nil => rfl
  | cons a as ih =>
    have hstart : ∀ o : ostream,
        (if first = true then (o, h) else ((o, h).1.write ", ", (o, h).2)) =
        ((if first = true then o else o.write ", "), h) := by
      intro o; cases first <;> rfl
    have hpre : (if first = true then os.prepend t else (os.prepend t).write ", ") =
        (if first = true then os else os.write ", ").prepend t := by
      cases first
      · exact write_prepend _ _ _
      · rfl
    simp only [write_items, hstart, hpre, hitem t a]
    cases item a ((if first = true then os else os.write ", "), h) with
    | none => rfl
    | some s1 => exact ih false s1.1 s1.2

theorem write_pair_frames (rec : var → ostream × heap → Option (ostream × heap))
    (hrec : frames rec) : frames (write_pair rec) := by
  intro t e os h
  simp only [write_pair, hrec t e.1]
  cases rec e.1 (os, h) with
  | none => rfl
  | some s1 =>
    simp only [Option.map_some', write_prepend]
    exact hrec t e.2 _ _

theorem write_entries_frames (rec : var → ostream × heap → Option (ostream × heap))
    (hrec : frames rec) (self : var) (t : List Char) (l : List var) (first : Bool)
    (os : ostream) (h : heap) :
    write_entries rec self l first (os.prepend t, h) =
      (write_entries rec self l first (os, h)).map (fun s => (s.1.prepend t, s.2)) := by
  induction l generalizing first os h with
  | nil => rfl
  | cons k ks ih =>
    have hstart : ∀ o : ostream,
        (if first = true then (o, h) else ((o, h).1.write ", ", (o, h).2)) =
        ((if first = true then o else o.write ", "), h) := by
      intro o; cases first <;> rfl
    have hpre : (if first = true then os.prepend t else (os.prepend t).write ", ") =
        (if first = true then os else os.write ", ").prepend t := by
      cases first
      · exact write_prepend _ _ _
      · rfl
    simp only [write_entries, hstart, hpre, hrec t k]
    cases rec k ((if first = true then os else os.write ", "), h) with
    | none => rfl
    | some s1 =>
      simp only [Option.map_some']
      rcases hidx : var.index_key_const self k s1.2 with ⟨res, h2⟩
      cases res with
      | error e => rfl
      | ok r =>
        simp only []
        cases h2.read r with
        | none => rfl
        | some v =>
          simp only [write_prepend, hrec t v]
          cases rec v (s1.1.write " : ", h2) with
          | none => rfl
          | some s2 => exact ih false s2.1 s2.2

theorem write_collection_frames (rec : var → ostream × heap → Option (ostream × heap))
    (hrec : frames rec) : frames (var._write_collection rec) := by
  intro t x os h
  cases x with
  | vector ptr =>
    simp only [var._write_collection, write_elements_eq, write_prepend,
      write_items_frames rec hrec]
    cases write_items rec (h.vectors ptr) true (os.write "[ ", h) with
    | none => rfl
    | some s1 => simp only [Option.map_some', write_prepend]
  | map ptr =>
    simp only [var._write_collection, write_prepend, write_entries_frames rec hrec]
    cases write_entries rec (.map ptr) ((h.maps ptr).map Prod.fst) true
        (os.write "\x7b ", h) with
    | none => rfl
    | some s1 => simp only [Option.map_some', write_prepend]
  | _ => rfl

theorem write_var_frames (pf : platform) (n : Nat) : frames (var._write_var pf n) := by
  induction n with
  | zero => intro t x os h; rfl
  | succ n ih =>
    intro t x os h
    cases x with
    | vector ptr =>
      simp only [var._write_var]
      exact write_collection_frames _ ih t _ os h
    | map ptr =>
      simp only [var._write_var]
      exact write_collection_frames _ ih t _ os h
    | null => simp [var._write_var, write_prepend]
    | bool b => simp [var._write_var, write_prepend]
    | int k => simp [var._write_var, write_int_prepend]
    | double d => simp [var._write_var, ostream.prepend]
    | string s => simp [var._write_var, write_string_prepend]
    | wstring s => simp [var._write_var, write_wstring_prepend]

/-! ## The shape of a rendered collection -/

theorem intercalate_cons (sep t : List Char) (ts : List (List Char)) :
    sep.intercalate (t :: ts) = t ++ (ts.map (fun u => sep ++ u)).flatten := by
  induction ts generalizing t with
  | nil => simp [List.intercalate]
  | cons u us ih =>
    have := ih u
    simp only [List.intercalate] at this ⊢
    simp [List.intersperse, this]

theorem item_texts_reset {α : Type} (item : α → ostream × heap → Option (ostream × heap))
    (l : List α) (os : ostream) (t : List Char) (h : heap) :
    item_texts item l (os.prepend t, h) = item_texts item l (os, h) := by
  cases l <;> rfl

/-- The loop with separators writes, after what was written before, the texts of
the items, each with the separator in front except the first of the loop. -/
theorem write_items_texts {α : Type} (item : α → ostream × heap → Option (ostream × heap))
    (hitem : frames item) (l : List α) (first : Bool) (os : ostream) (h : heap) :
    write_items item l first (os, h) =
      (item_texts item l (os, h)).map (fun r =>
        ({ r.2.1 with out := os.out ++
            (if first then ", ".data.intercalate r.1
              else (r.1.map (fun u => ", ".data ++ u)).flatten) }, r.2.2)) := by
  induction l generalizing first os h with
  | nil =>
    cases first <;> simp [write_items, item_texts, List.intercalate]
  | cons a as ih =>
    have hstart : (if first = true then (os, h) else ((os, h).1.write ", ", (os, h).2)) =
        (({ os with out := [] } : ostream).prepend
          (if first = true then os.out else os.out ++ ", ".data), h) := by
      cases first <;> simp [ostream.prepend, ostream.write]
    have hi := hitem (if first = true then os.out else os.out ++ ", ".data) a
      { os with out := [] } h
    simp only [write_items, item_texts, hstart]
    rw [hi]
    cases item a ({ os with out := [] }, h) with
    | none => rfl
    | some s1 =>
      obtain ⟨os1, h1⟩ := s1
      simp only [Option.map_some']
      rw [ih false, item_texts_reset]
      cases item_texts item as (os1, h1) with
      | none => rfl
      | some r =>
        cases first <;>
          simp [ostream.prepend, intercalate_cons, List.append_assoc]

theorem item_texts_out {α : Type} (item : α → ostream × heap → Option (ostream × heap))
    (l : List α) (os : ostream) (t : List Char) (h : heap) :
    item_texts item l ({ os with out := t }, h) = item_texts item l (os, h) := by
  cases l <;> rfl

/-- The rendering of a sequence. -/
theorem write_var_vector (pf : platform) (n : Nat) (h : heap) (ptr : Nat) (os : ostream) :
    var._write_var pf (n + 1) (.vector ptr) (os, h) =
      (item_texts (var._write_var pf n) (h.vectors ptr) (os, h)).map
        (bracketed "[ " " ]" os) := by
  simp only [var._write_var, var._write_collection, write_elements_eq,
    write_items_texts _ (write_var_frames pf n)]
  have hw : os.write "[ " = { os with out := os.out ++ "[ ".data } := rfl
  rw [hw, item_texts_out]
  cases item_texts (var._write_var pf n) (h.vectors ptr) (os, h) with
  | none => rfl
  | some r => simp [bracketed, ostream.write]

/-- The rendering of a mapping with ascending keys. -/
theorem write_var_map (pf : platform) (n : Nat) (h : heap) (hw : h.wf) (ptr : Nat)
    (os : ostream) :
    var._write_var pf (n + 1) (.map ptr) (os, h) =
      (item_texts (write_pair (var._write_var pf n)) (h.maps ptr) (os, h)).map
        (bracketed "\x7b " " \x7d" os) := by
  simp only [var._write_var, var._write_collection]
  have hb : os.write "\x7b " = { os with out := os.out ++ "\x7b ".data } := rfl
  rw [write_entries_eq _ h ptr (write_var_keeps pf h hw n) (hw ptr) [] (h.maps ptr) rfl,
    write_items_texts _ (write_pair_frames _ (write_var_frames pf n)), hb, item_texts_out]
  cases item_texts (write_pair (var._write_var pf n)) (h.maps ptr) (os, h) with
  | none => rfl
  | some r => simp [bracketed, ostream.write]

/-! ## Rendering returns and changes nothing -/

theorem write_items_total {α : Type} (item : α → ostream × heap → Option (ostream × heap))
    (h : heap) (l : List α)
    (hitem : ∀ a ∈ l, ∀ os, ∃ os1, item a (os, h) = some (os1, h))
    (first : Bool) (os : ostream) :
    ∃ os1, write_items item l first (os, h) = some (os1, h) := by
  induction l generalizing first os with
  | nil => exact ⟨os, rfl⟩
  | cons a as ih =>
    have hstart : (if first = true then (os, h) else ((os, h).1.write ", ", (os, h).2)) =
        ((if first = true then os else os.write ", "), h) := by
      cases first <;> rfl
    obtain ⟨os1, h1⟩ := hitem a (List.mem_cons_self _ _)
      (if first = true then os else os.write ", ")
    simp only [write_items, hstart, h1]
    exact ih (fun b hb => hitem b (List.mem_cons_of_mem _ hb)) false os1

theorem write_pair_total (rec : var → ostream × heap → Option (ostream × heap)) (h : heap)
    (e : var × var)
    (hk : ∀ os, ∃ os1, rec e.1 (os, h) = some (os1, h))
    (hv : ∀ os, ∃ os1, rec e.2 (os, h) = some (os1, h)) (os : ostream) :
    ∃ os1, write_pair rec e (os, h) = some (os1, h) := by
  obtain ⟨os1, h1⟩ := hk os
  simp only [write_pair, h1]
  exact hv _

/-- Writing a var of depth at most `n` within `n` nested calls returns, on a heap
of ascending mappings, and leaves the heap as it is. -/
theorem write_var_total (pf : platform) (h : heap) (hw : h.wf) (n : Nat) :
    ∀ x, depth_le h n x = true → ∀ os, ∃ os1, var._write_var pf n x (os, h) = some (os1, h) := by
  induction n with
  | zero => intro x hx; simp [depth_le] at hx
  | succ n ih =>
    intro x hx os
    cases x with
    | vector ptr =>
      simp only [depth_le, List.all_eq_true] at hx
      obtain ⟨os1, h1⟩ := write_items_total (var._write_var pf n) h (h.vectors ptr)
        (fun a ha => ih a (hx a ha)) true (os.write "[ ")
      simp only [var._write_var, var._write_collection, write_elements_eq, h1]
      exact ⟨_, rfl⟩
    | map ptr =>
      simp only [depth_le, List.all_eq_true, Bool.and_eq_true] at hx
      obtain ⟨os1, h1⟩ := write_items_total (write_pair (var._write_var pf n)) h (h.maps ptr)
        (fun e he => write_pair_total _ h e (ih e.1 (hx e he).1) (ih e.2 (hx e he).2))
        true (os.write "\x7b ")
      simp only [var._write_var, var._write_collection,
        write_entries_eq _ h ptr (write_var_keeps pf h hw n) (hw ptr) [] (h.maps ptr) rfl, h1]
      exact ⟨_, rfl⟩
    | _ => exact ⟨_, rfl⟩

theorem write_collection_w_eq (rec : var → ostream × heap → Option (ostream × heap))
    (x : var) (s : ostream × heap) :
    var._write_collection_w rec x s = var._write_collection rec x s := by
  cases x <;> rfl

theorem write_var_w_keeps (pf : platform) (h : heap) (hw : h.wf) (n : Nat) :
    ∀ x os r, var._write_var_w pf n x (os, h) = some r → r.2 = h := by
  induction n with
  | zero => intro x os r hr; simp [var._write_var_w] at hr
  | succ n ih =>
    intro x os r hr
    cases x with
    | vector ptr =>
      simp only [var._write_var_w, write_collection_w_eq] at hr
      exact write_collection_keeps _ h hw ih _ os r hr
    | map ptr =>
      simp only [var._write_var_w, write_collection_w_eq] at hr
      exact write_collection_keeps _ h hw ih _ os r hr
    | _ =>
      simp only [var._write_var_w, Option.some.injEq] at hr
      rw [← hr]

theorem write_var_w_total (pf : platform) (h : heap) (hw : h.wf) (n : Nat) :
    ∀ x, depth_le h n x = true →
      ∀ os, ∃ os1, var._write_var_w pf n x (os, h) = some (os1, h) := by
  induction n with
  | zero => intro x hx; simp [depth_le] at hx
  | succ n ih =>
    intro x hx os
    cases x with
    | vector ptr =>
      simp only [depth_le, List.all_eq_true] at hx
      obtain ⟨os1, h1⟩ := write_items_total (var._write_var_w pf n) h (h.vectors ptr)
        (fun a ha => ih a (hx a ha)) true (os.write "[ ")
      simp only [var._write_var_w, write_collection_w_eq, var._write_collection,
        write_elements_eq, h1]
      exact ⟨_, rfl⟩
    | map ptr =>
      simp only [depth_le, List.all_eq_true, Bool.and_eq_true] at hx
      obtain ⟨os1, h1⟩ := write_items_total (write_pair (var._write_var_w pf n)) h (h.maps ptr)
        (fun e he => write_pair_total _ h e (ih e.1 (hx e he).1) (ih e.2 (hx e he).2))
        true (os.write "\x7b ")
      simp only [var._write_var_w, write_collection_w_eq, var._write_collection,
        write_entries_eq _ h ptr (write_var_w_keeps pf h hw n) (hw ptr) [] (h.maps ptr) rfl, h1]
      exact ⟨_, rfl⟩
    | _ => exact ⟨_, rfl⟩

/-- C20: on a heap whose mappings have ascending keys, whenever the byte-oriented
or the wide-character renderer returns from writing a var x, the heap is the
heap from before, so that no mapping has got an entry, and writing x again to a
stream in the same state gives the same result; and for every x of nesting
depth at most n both renderers do return within n nested calls. -/
theorem rendering_keeps_heap (pf : platform) (h : heap) (hw : h.wf) (n : Nat) (x : var)
    (os : ostream) :
    (∀ r, var._write_var pf n x (os, h) = some r →
      r.2 = h ∧ var._write_var pf n x (os, r.2) = some r) ∧
    (∀ r, var._write_var_w pf n x (os, h) = some r →
      r.2 = h ∧ var._write_var_w pf n x (os, r.2) = some r) ∧
    (depth_le h n x = true →
      (∃ os1, var._write_var pf n x (os, h) = some (os1, h)) ∧
      (∃ os1, var._write_var_w pf n x (os, h) = some (os1, h))) := by
  refine ⟨?_, ?_, ?_⟩
  · intro r hr
    have := write_var_keeps pf h hw n x os r hr
    exact ⟨this, by rw [this]; exact hr⟩
  · intro r hr
    have := write_var_w_keeps pf h hw n x os r hr
    exact ⟨this, by rw [this]; exact hr⟩
  · intro hd
    exact ⟨write_var_total pf h hw n x hd os, write_var_w_total pf h hw n x hd os⟩

/-- C20, witness: the mapping with the one entry "a" -> 1. -/
theorem rendering_keeps_heap_witness :
    heap.wf (heap.mk (fun _ => []) (fun _ => [(var.string "a", var.int 1)])) ∧
    depth_le (heap.mk (fun _ => []) (fun _ => [(var.string "a", var.int 1)])) 2 (.map 0) =
      true ∧
    (∃ os1, var._write_var ⟨fun _ => [], fun _ => [], true⟩ 2 (.map 0)
      (ostream.fresh, heap.mk (fun _ => []) (fun _ => [(var.string "a", var.int 1)])) =
        some (os1, heap.mk (fun _ => []) (fun _ => [(var.string "a", var.int 1)]))) :=
  ⟨fun _ => (by decide : ascending [(var.string "a", var.int 1)]), by decide,
    ((rendering_keeps_heap ⟨fun _ => [], fun _ => [], true⟩
      (heap.mk (fun _ => []) (fun _ => [(var.string "a", var.int 1)]))
      (fun _ => (by decide : ascending [(var.string "a", var.int 1)])) 2 (.map 0)
      ostream.fresh).2.2 (by decide)).1⟩

/-! ## Rendering a sequence -/

theorem item_texts_length {α : Type} (item : α → ostream × heap → Option (ostream × heap))
    (l : List α) (s : ostream × heap) (r : List (List Char) × (ostream × heap))
    (hr : item_texts item l s = some r) : r.1.length = l.length := by
  induction l generalizing s r with
  | nil =>
    simp only [item_texts, Option.some.injEq] at hr
    rw [← hr]; rfl
  | cons a as ih =>
    simp only [item_texts] at hr
    cases ha : item a ({ s.1 with out := [] }, s.2) with
    | none => rw [ha] at hr; cases hr
    | some s1 =>
      rw [ha] at hr
      simp only [] at hr
      cases hrest : item_texts item as s1 with
      | none => rw [hrest] at hr; cases hr
      | some r1 =>
        rw [hrest] at hr
        simp only [Option.some.injEq] at hr
        rw [← hr]
        simp [ih s1 r1 hrest]

/-- C13: the byte-oriented renderer returns from a sequence exactly when it
returns from the elements, each written in the formatting state the element
before it left, and then it has written `[ `, the texts of the elements in
sequence order joined by `, `, and ` ]`; the nested sequences are elements
written by the same renderer.  On a heap of ascending mappings a sequence of
nesting depth at most n + 1 is written within n + 1 nested calls, with one text
for each element.  The empty sequence is written as `[  ]`, the sequence of the
ints 1, 2, 3 as `[ 1, 2, 3 ]`, and the sequence of the sequence 1, 2 and the
empty sequence as `[ [ 1, 2 ], [  ] ]`. -/
theorem sequence_rendering (pf : platform) (n : Nat) (h : heap) (ptr : Nat) (os : ostream) :
    var._write_var pf (n + 1) (.vector ptr) (os, h) =
      (item_texts (var._write_var pf n) (h.vectors ptr) (os, h)).map
        (bracketed "[ " " ]" os) ∧
    (h.wf → depth_le h (n + 1) (.vector ptr) = true →
      ∃ r, item_texts (var._write_var pf n) (h.vectors ptr) (os, h) = some r ∧
        r.1.length = (h.vectors ptr).length ∧
        var._write_var pf (n + 1) (.vector ptr) (os, h) =
          some ({ r.2.1 with out := os.out ++
            ("[ ".data ++ (", ".data.intercalate r.1 ++ " ]".data)) }, h)) ∧
    (var._write_var pf 1 (.vector 0) (ostream.fresh, heap.empty)).map (fun s => s.1.out) =
      some "[  ]".data ∧
    (var._write_var pf 2 (.vector 0)
        (ostream.fresh, heap.mk (fun _ => [var.int 1, var.int 2, var.int 3]) (fun _ => []))).map
      (fun s => s.1.out) = some "[ 1, 2, 3 ]".data ∧
    (var._write_var pf 3 (.vector 0)
        (ostream.fresh,
          heap.mk (fun p => if p = 0 then [var.vector 1, var.vector 2]
            else if p = 1 then [var.int 1, var.int 2] else []) (fun _ => []))).map
      (fun s => s.1.out) = some "[ [ 1, 2 ], [  ] ]".data := by
  refine ⟨write_var_vector pf n h ptr os, ?_, rfl, rfl, rfl⟩
  intro hw hd
  obtain ⟨os1, h1⟩ := write_var_total pf h hw (n + 1) (.vector ptr) hd os
  rw [write_var_vector] at h1
  cases hr : item_texts (var._write_var pf n) (h.vectors ptr) (os, h) with
  | none => rw [hr] at h1; cases h1
  | some r =>
    rw [hr] at h1
    simp only [Option.map_some', Option.some.injEq, bracketed, Prod.mk.injEq] at h1
    refine ⟨r, rfl, item_texts_length _ _ _ r hr, ?_⟩
    rw [write_var_vector, hr]
    simp only [Option.map_some', bracketed, h1.2]

/-- C13, witness: the sequence of the string "x" and a null. -/
theorem sequence_rendering_witness :
    heap.wf (heap.mk (fun _ => [var.string "x", var.null]) (fun _ => [])) ∧
    depth_le (heap.mk (fun _ => [var.string "x", var.null]) (fun _ => [])) 2 (.vector 0) =
      true ∧
    ∃ r, item_texts (var._write_var ⟨fun _ => [], fun _ => [], true⟩ 1)
        ((heap.mk (fun _ => [var.string "x", var.null]) (fun _ => [])).vectors 0)
        (ostream.fresh, heap.mk (fun _ => [var.string "x", var.null]) (fun _ => [])) =
          some r ∧
      r.1.length = 2 :=
  ⟨fun _ => List.Pairwise.nil, by decide,
    let ⟨r, a, b, _⟩ := (sequence_rendering ⟨fun _ => [], fun _ => [], true⟩ 1
      (heap.mk (fun _ => [var.string "x", var.null]) (fun _ => [])) 0 ostream.fresh).2.1
      (fun _ => List.Pairwise.nil) (by decide)
    ⟨r, a, b⟩⟩

/-! ## Insertion order -/

theorem insert_all_map (ptr : Nat) (l : List (var × var)) (h : heap) :
    insert_all (.map ptr) l h =
      (.ok (.map ptr),
        { h with maps := (Function.update h.maps ptr (insert_pairs (h.maps ptr) l)) }) := by
  induction l generalizing h with
  | nil =>
    simp only [insert_all, insert_pairs, List.foldl_nil]
    rw [heap_update_maps_self]
  | cons kv kvs ih =>
    simp only [insert_all, var.append_kv, var.append_key_value_visitor]
    rw [ih]
    simp [insert_pairs]

theorem insert_pairs_ascending (m : map_type) (l : List (var × var)) (hm : ascending m) :
    ascending (insert_pairs m l) := by
  induction l generalizing m with
  | nil => exact hm
  | cons kv kvs ih => exact ih _ (ascending_insert m kv hm)

theorem insert_pairs_perm (m : map_type) (l : List (var × var))
    (hl : l.Pairwise (fun a b => var.equiv a.1 b.1 = false))
    (hm : ∀ e ∈ m, ∀ kv ∈ l, var.equiv e.1 kv.1 = false) :
    (insert_pairs m l).Perm (m ++ l) := by
  induction l generalizing m with
  | nil => simp [insert_pairs]
  | cons kv kvs ih =>
    have habs : absent kv.1 m := fun e he => hm e he kv (List.mem_cons_self _ _)
    have hins := insert_absent m kv habs
    have hperm : (map_type.insert m kv).2.Perm (kv :: m) := by
      rw [hins]
      have := @List.perm_middle _ kv (m.take (lower_bound m kv.1))
        (m.drop (lower_bound m kv.1))
      rw [List.take_append_drop] at this
      exact this
    have hl2 := List.pairwise_cons.mp hl
    have hm1 : ∀ e ∈ (map_type.insert m kv).2, ∀ kv1 ∈ kvs, var.equiv e.1 kv1.1 = false := by
      intro e he kv1 hkv1
      rcases List.mem_cons.mp (hperm.subset he) with rfl | he
      · exact hl2.1 kv1 hkv1
      · exact hm e he kv1 (List.mem_cons_of_mem _ hkv1)
    have h1 := ih (map_type.insert m kv).2 hl2.2 hm1
    have h2 : ((map_type.insert m kv).2 ++ kvs).Perm (m ++ kv :: kvs) :=
      (hperm.append_right kvs).trans List.perm_middle.symm
    exact h1.trans h2

/-- Two ascending maps with the same entries are the same map. -/
theorem ascending_perm_eq (m1 m2 : map_type) (hp : m1.Perm m2) (h1 : ascending m1)
    (h2 : ascending m2) : m1 = m2 := by
  haveI : IsAntisymm (var × var) (fun a b => var.less_var a.1 b.1 = true) :=
    ⟨fun a b hab hba => by rw [less_var_asymm _ _ hab] at hba; cases hba⟩
  exact List.eq_of_perm_of_sorted hp h1 h2

theorem pairwise_inequivalent_perm (l1 l2 : List (var × var)) (hp : l1.Perm l2)
    (hk : l1.Pairwise (fun a b => var.equiv a.1 b.1 = false)) :
    l2.Pairwise (fun a b => var.equiv a.1 b.1 = false) := by
  refine hp.pairwise hk ?_
  intro a b hab
  simpa [var.equiv, Bool.and_comm] using hab

/-- C12: when pairs with pairwise inequivalent keys are added to an empty
mapping with append(key, value), every call succeeds, and the pairs in any
other order give the same heap: the mapping holds exactly the pairs, its keys
ascending, so that the byte-oriented renderer does the same on both.  On a heap
of ascending mappings it returns exactly when it returns from the keys and
values, and then it has written an opening brace and a blank, the texts of the
entries in ascending order of the keys joined by `, `, a blank and a closing
brace, the text of an entry being its key, ` : `, and its value; with nesting
depth at most n + 1 it does return within n + 1 nested calls, with one text for
each pair.  The pairs "b" -> 2 and "a" -> 1 are written with "a" first,
whichever was added first. -/
theorem mapping_rendering_order (pf : platform) (h : heap) (ptr : Nat)
    (l1 l2 : List (var × var)) (he : h.maps ptr = []) (hp : l1.Perm l2)
    (hk : l1.Pairwise (fun a b => var.equiv a.1 b.1 = false)) :
    (insert_all (.map ptr) l1 h).1 = .ok (.map ptr) ∧
    (insert_all (.map ptr) l2 h).1 = .ok (.map ptr) ∧
    (insert_all (.map ptr) l2 h).2 = (insert_all (.map ptr) l1 h).2 ∧
    ascending ((insert_all (.map ptr) l1 h).2.maps ptr) ∧
    ((insert_all (.map ptr) l1 h).2.maps ptr).Perm l1 ∧
    (∀ (n : Nat) (os : ostream),
      var._write_var pf n (.map ptr) (os, (insert_all (.map ptr) l2 h).2) =
        var._write_var pf n (.map ptr) (os, (insert_all (.map ptr) l1 h).2)) ∧
    (h.wf → ∀ (n : Nat) (os : ostream),
      var._write_var pf (n + 1) (.map ptr) (os, (insert_all (.map ptr) l1 h).2) =
        (item_texts (write_pair (var._write_var pf n))
            ((insert_all (.map ptr) l1 h).2.maps ptr)
            (os, (insert_all (.map ptr) l1 h).2)).map
          (bracketed "\x7b " " \x7d" os)) ∧
    (h.wf → ∀ (n : Nat) (os : ostream),
      depth_le (insert_all (.map ptr) l1 h).2 (n + 1) (.map ptr) = true →
      ∃ r, item_texts (write_pair (var._write_var pf n))
            ((insert_all (.map ptr) l1 h).2.maps ptr)
            (os, (insert_all (.map ptr) l1 h).2) = some r ∧
        r.1.length = l1.length ∧
        var._write_var pf (n + 1) (.map ptr) (os, (insert_all (.map ptr) l1 h).2) =
          some ({ r.2.1 with out := os.out ++
            ("\x7b ".data ++ (", ".data.intercalate r.1 ++ " \x7d".data)) },
            (insert_all (.map ptr) l1 h).2)) ∧
    (var._write_var pf 2 (.map 0)
        (ostream.fresh, (insert_all (.map 0)
          [(var.string "b", var.int 2), (var.string "a", var.int 1)] heap.empty).2)).map
      (fun s => s.1.out) = some "\x7b \"a\" : 1, \"b\" : 2 \x7d".data ∧
    (var._write_var pf 2 (.map 0)
        (ostream.fresh, (insert_all (.map 0)
          [(var.string "a", var.int 1), (var.string "b", var.int 2)] heap.empty).2)).map
      (fun s => s.1.out) = some "\x7b \"a\" : 1, \"b\" : 2 \x7d".data := by
  have hk2 := pairwise_inequivalent_perm l1 l2 hp hk
  have hp1 : (insert_pairs (h.maps ptr) l1).Perm l1 := by
    have := insert_pairs_perm (h.maps ptr) l1 hk (by rw [he]; intro e he0; cases he0)
    rw [he, List.nil_append] at this
    rw [he]; exact this
  have hp2 : (insert_pairs (h.maps ptr) l2).Perm l2 := by
    have := insert_pairs_perm (h.maps ptr) l2 hk2 (by rw [he]; intro e he0; cases he0)
    rw [he, List.nil_append] at this
    rw [he]; exact this
  have ha1 : ascending (insert_pairs (h.maps ptr) l1) :=
    insert_pairs_ascending _ l1 (by rw [he]; exact List.Pairwise.nil)
  have ha2 : ascending (insert_pairs (h.maps ptr) l2) :=
    insert_pairs_ascending _ l2 (by rw [he]; exact List.Pairwise.nil)
  have heq : insert_pairs (h.maps ptr) l2 = insert_pairs (h.maps ptr) l1 :=
    ascending_perm_eq _ _ ((hp2.trans hp.symm).trans hp1.symm) ha2 ha1
  have hheap : (insert_all (.map ptr) l2 h).2 = (insert_all (.map ptr) l1 h).2 := by
    rw [insert_all_map, insert_all_map, heq]
  have hmaps : (insert_all (.map ptr) l1 h).2.maps ptr = insert_pairs (h.maps ptr) l1 := by
    rw [insert_all_map]; simp
  have hwf : h.wf → (insert_all (.map ptr) l1 h).2.wf := by
    intro hw
    rw [insert_all_map]
    exact wf_update h ptr _ hw ha1
  refine ⟨by rw [insert_all_map], by rw [insert_all_map], hheap, by rw [hmaps]; exact ha1,
    by rw [hmaps]; exact hp1, fun n os => by rw [hheap], ?_, ?_, rfl, rfl⟩
  · intro hw n os
    exact write_var_map pf n _ (hwf hw) ptr os
  · intro hw n os hd
    obtain ⟨os1, h1⟩ := write_var_total pf _ (hwf hw) (n + 1) (.map ptr) hd os
    rw [write_var_map pf n _ (hwf hw)] at h1
    cases hr : item_texts (write_pair (var._write_var pf n))
        ((insert_all (.map ptr) l1 h).2.maps ptr) (os, (insert_all (.map ptr) l1 h).2) with
    | none => rw [hr] at h1; cases h1
    | some r =>
      rw [hr] at h1
      simp only [Option.map_some', Option.some.injEq, bracketed, Prod.mk.injEq] at h1
      refine ⟨r, rfl, ?_, ?_⟩
      · rw [item_texts_length _ _ _ r hr, hmaps]
        exact hp1.length_eq
      · rw [write_var_map pf n _ (hwf hw), hr]
        simp only [Option.map_some', bracketed, h1.2]

/-- C12, witness: the keys 2 and 1 added in both orders. -/
theorem mapping_rendering_order_witness :
    heap.empty.maps 0 = [] ∧
    [(var.int 2, var.null), (var.int 1, var.null)].Perm
      [(var.int 1, var.null), (var.int 2, var.null)] ∧
    [(var.int 2, var.null), (var.int 1, var.null)].Pairwise
      (fun a b => var.equiv a.1 b.1 = false) ∧
    (insert_all (.map 0) [(var.int 1, var.null), (var.int 2, var.null)] heap.empty).2 =
      (insert_all (.map 0) [(var.int 2, var.null), (var.int 1, var.null)] heap.empty).2 :=
  ⟨rfl, List.Perm.swap _ _ _, by decide,
    (mapping_rendering_order ⟨fun _ => [], fun _ => [], true⟩ heap.empty 0
      [(var.int 2, var.null), (var.int 1, var.null)]
      [(var.int 1, var.null), (var.int 2, var.null)] rfl (List.Perm.swap _ _ _)
      (by decide)).2.2.1⟩

end dynamic
